import Mathlib

/-!
Verification of the JD-Match resume reconciliation engine and its retry logic.

The definitions below are a shallow embedding of the rewrite-application code
in `src/App.jsx` (`handleApplyRewrite`, lines 573-666, `handleStartOver`,
lines 562-571, and the apply button guard at line 1080) and of the retry loop
`generateWithRetry` in `server/index.js` (lines 70-90) / `api/analyze.js`
(lines 38-57).  JavaScript strings are modelled as `List Char`; the JS `-1`
"not found" sentinel is modelled as `Option`.
-/

namespace JDMatch

/-- The JS `\s` character class (ECMA-262 WhiteSpace ∪ LineTerminator):
TAB, LF, VT, FF, CR, SP, NBSP, OGHAM, U+2000-U+200A, LS, PS, NNBSP, MMSP,
IDEOGRAPHIC SPACE, BOM. -/
def jsWhitespace (c : Char) : Bool :=
  c.toNat == 9 || c.toNat == 10 || c.toNat == 11 || c.toNat == 12 ||
  c.toNat == 13 || c.toNat == 32 || c.toNat == 160 || c.toNat == 0x1680 ||
  (decide (0x2000 ≤ c.toNat) && decide (c.toNat ≤ 0x200A)) ||
  c.toNat == 0x2028 || c.toNat == 0x2029 || c.toNat == 0x202F ||
  c.toNat == 0x205F || c.toNat == 0x3000 || c.toNat == 0xFEFF

/-- `/\s/.test(s[i])`, with the JS convention that an out-of-range read
(`undefined`, or the `|| ''` fallback at line 612) tests false. -/
def wsAt (s : List Char) (i : Nat) : Bool :=
  match s[i]? with
  | some c => jsWhitespace c
  | none => false

/-- ASCII lowercasing of one character, the effect of JS `toLowerCase()`
on the character range the engine compares. -/
def jsToLower (c : Char) : Char :=
  if 65 ≤ c.toNat ∧ c.toNat ≤ 90 then Char.ofNat (c.toNat + 32) else c

/-- Worker for `collapseWs`; `prevWs` records whether the previous character
was whitespace (i.e. whether we are inside a whitespace run). -/
def collapseWsAux (prevWs : Bool) : List Char → List Char
  | [] => []
  | c :: rest =>
    if jsWhitespace c then
      if prevWs then collapseWsAux true rest
      else ' ' :: collapseWsAux true rest
    else c :: collapseWsAux false rest

/-- `s.replace(/\s+/g, ' ')`: every maximal whitespace run becomes one space. -/
def collapseWs (s : List Char) : List Char := collapseWsAux false s

/-- `s.trim()`: strip leading and trailing whitespace. -/
def trimWs (s : List Char) : List Char :=
  (((s.dropWhile jsWhitespace).reverse).dropWhile jsWhitespace).reverse

/-- The normalization at App.jsx line 583:
`(s) => s.replace(/\s+/g, ' ').trim().toLowerCase()`. -/
def normalize (s : List Char) : List Char :=
  (trimWs (collapseWs s)).map jsToLower

/-- Does `pat` occur at the very start of `s`? (The matching step of
JS `indexOf`.) -/
def matchesAt : List Char → List Char → Bool
  | [], _ => true
  | _ :: _, [] => false
  | p :: ps, c :: cs => p == c && matchesAt ps cs

/-- Worker for `jsIndexOf`: try position `i`, then slide right. -/
def jsIndexOfAux (pat : List Char) : Nat → List Char → Option Nat
  | i, [] => if matchesAt pat [] then some i else none
  | i, c :: rest =>
    if matchesAt pat (c :: rest) then some i else jsIndexOfAux pat (i + 1) rest

/-- `s.indexOf(pat)`: index of the first occurrence, `none` for JS `-1`. -/
def jsIndexOf (s pat : List Char) : Option Nat := jsIndexOfAux pat 0 s

/-- `s.indexOf(pat, start)`: first occurrence at or after `start`. -/
def jsIndexOfFrom (s pat : List Char) (start : Nat) : Option Nat :=
  jsIndexOfAux pat start (s.drop start)

/-- The trailing-whitespace fold at App.jsx lines 610-614: starting from the
just-set `realEnd`, `while (realEnd < len && /\s/.test(s[realEnd]) &&
(realEnd === len - 1 || /\s/.test(s[realEnd]))) { if (!/\s/.test(s[realEnd+1]
|| '')) break; realEnd++ }`. -/
def extendEndGo (text : List Char) : Nat → Nat → Nat
  | 0, e => e
  | fuel + 1, e =>
    if e < text.length ∧ wsAt text e = true ∧
        (e = text.length - 1 ∨ wsAt text e = true) then
      if wsAt text (e + 1) = false then e
      else extendEndGo text fuel (e + 1)
    else e

/-- Entry point for the fold; the fuel `text.length - e` dominates the number
of remaining iterations (the loop index grows strictly and stays below
`text.length`), so `extendEndGo` runs exactly the JS `while` loop. -/
def extendEnd (text : List Char) (e : Nat) : Nat :=
  extendEndGo text (text.length - e) e

/-- The position-mapping loop at App.jsx lines 591-617: walk `text` with a
normalized-position counter `normI` (one increment per maximal whitespace run,
one per other character), recording the raw offsets `realStart`/`realEnd`
where the counter crosses `normPos` and `normPos + normLen`.  The loop runs
`for (ri = 0; ri < text.length && realEnd === -1; ri++)`. -/
def mapLoopGo (text : List Char) (normPos normLen : Nat) :
    Nat → Nat → Nat → Option Nat → Option Nat → Option Nat × Option Nat
  | 0, _ri, _normI, realStart, realEnd => (realStart, realEnd)
  | fuel + 1, ri, normI, realStart, realEnd =>
    if ri < text.length ∧ realEnd = none then
      if wsAt text ri = true then
        if ri = 0 ∨ wsAt text (ri - 1) = false then
          -- first character of a whitespace run: counts once
          let rs := if normI = normPos ∧ realStart = none then some ri
                    else realStart
          let re := if normI + 1 = normPos + normLen ∧ rs ≠ none
                    then some (ri + 1) else realEnd
          mapLoopGo text normPos normLen fuel (ri + 1) (normI + 1) rs re
        else
          -- further character of the same whitespace run: not counted
          let re := if normI = normPos + normLen ∧ realStart ≠ none
                    then some ri else realEnd
          mapLoopGo text normPos normLen fuel (ri + 1) normI realStart re
      else
        let rs := if normI = normPos ∧ realStart = none then some ri
                  else realStart
        let re := if normI + 1 = normPos + normLen ∧ rs ≠ none
                  then some (extendEnd text (ri + 1)) else realEnd
        mapLoopGo text normPos normLen fuel (ri + 1) (normI + 1) rs re
    else (realStart, realEnd)

/-- Entry point for the mapping loop at loop index `ri`; the fuel
`text.length - ri` dominates the number of remaining iterations, so
`mapLoopGo` runs exactly the JS `for` loop. -/
def mapLoop (text : List Char) (normPos normLen : Nat)
    (ri normI : Nat) (realStart realEnd : Option Nat) :
    Option Nat × Option Nat :=
  mapLoopGo text normPos normLen (text.length - ri) ri normI realStart realEnd

/-- Tier 2 of the search (App.jsx lines 582-624): whitespace-normalized match,
mapped back to a raw `(pos, matchLen)` range of the un-normalized text. -/
def tier2 (liveText original : List Char) : Option (Nat × Nat) :=
  let normOriginal := normalize original
  let normResume := normalize liveText
  match jsIndexOf normResume normOriginal with
  | none => none
  | some normPos =>
    match mapLoop liveText normPos normOriginal.length 0 0 none none with
    | (some realStart, some realEnd) => some (realStart, realEnd - realStart)
    | _ => none

/-- Worker for `splitWs`; `prevWs` true while inside a separator run. -/
def splitWsGo (acc : List Char) (prevWs : Bool) : List Char → List (List Char)
  | [] => [acc.reverse]
  | c :: rest =>
    if jsWhitespace c then
      if prevWs then splitWsGo acc true rest
      else acc.reverse :: splitWsGo [] true rest
    else splitWsGo (c :: acc) false rest

/-- JS `s.split(/\s+/)`.  Note the JS semantics: leading (resp. trailing)
whitespace contributes an empty first (resp. last) element. -/
def splitWs (s : List Char) : List (List Char) := splitWsGo [] false s

/-- `words.slice(0, len).join(' ')` (App.jsx line 630). -/
def fragmentOf (words : List (List Char)) (len : Nat) : List Char :=
  List.intercalate [' '] (words.take len)

/-- The fragment-length countdown loop of tier 3 (App.jsx lines 629-642):
`for (let len = min(words.length, 8); len >= 3; len--)`. -/
def tier3Go (liveText : List Char) (words : List (List Char)) :
    Nat → Option (Nat × Nat)
  | 0 => none
  | len + 1 =>
    if 3 ≤ len + 1 then
      let fragLower := (fragmentOf words (len + 1)).map jsToLower
      let resumeLower := liveText.map jsToLower
      match jsIndexOf resumeLower fragLower with
      | some fragPos =>
        let endPos := match jsIndexOfFrom liveText ['\n'] fragPos with
          | some e => e
          | none => liveText.length
        some (fragPos, endPos - fragPos)
      | none => tier3Go liveText words len
    else none

/-- Tier 3 of the search (App.jsx lines 626-643): case-insensitive search for
the longest fragment of the first `len` words, the match extended to the end
of the line. -/
def tier3 (liveText original : List Char) : Option (Nat × Nat) :=
  tier3Go liveText (splitWs original) (min (splitWs original).length 8)

/-- The whole three-tier search of `handleApplyRewrite`: exact `indexOf`
(line 578), then normalized (lines 582-624), then fragment (lines 626-643).
Returns the raw `(pos, matchLen)` to replace, `none` for "not found". -/
def locate (liveText original : List Char) : Option (Nat × Nat) :=
  match jsIndexOf liveText original with
  | some pos => some (pos, original.length)
  | none =>
    match tier2 liveText original with
    | some r => some r
    | none => tier3 liveText original

/-- The pure core of `handleApplyRewrite`: on success returns the new text
`liveText.slice(0, pos) + suggested + liveText.slice(pos + matchLen)`
(line 650) together with the highlight range
`{start: pos, end: pos + suggested.length}` (line 655). -/
def locateAndReplace (liveText original suggested : List Char) :
    Option (List Char × Nat × Nat) :=
  match locate liveText original with
  | none => none
  | some (pos, matchLen) =>
    some (liveText.take pos ++ suggested ++ liveText.drop (pos + matchLen),
          pos, pos + suggested.length)

/-- One rewrite suggestion `{original, suggested, why}` of the analysis
result. -/
structure Rewrite where
  original : List Char
  suggested : List Char
  why : List Char
deriving DecidableEq, Repr

/-- The session state mutated by `handleApplyRewrite`: the live resume text,
the set of applied suggestion indices, whether the not-found error message is
showing, and the transient highlight range. -/
structure Session where
  resumeText : List Char
  appliedRewrites : Finset Nat
  errorShown : Bool
  highlightRange : Option (Nat × Nat)
deriving DecidableEq

/-- The state transition of `handleApplyRewrite` (App.jsx lines 573-666) for a
resolved suggestion: on failure only the error message is set (lines 645-648);
on success the text is replaced, the index is added to `appliedRewrites`, the
error is cleared and the highlight range is set (lines 650-655). -/
def handleApplyRewrite (r : Rewrite) (index : Nat) (s : Session) : Session :=
  match locateAndReplace s.resumeText r.original r.suggested with
  | none =>
    Session.mk s.resumeText s.appliedRewrites true s.highlightRange
  | some (newText, hs, he) =>
    Session.mk newText (insert index s.appliedRewrites) false (some (hs, he))

/-- The orchestrator-level apply: the UI renders each apply button with
`disabled={appliedRewrites.has(i)}` (App.jsx line 1080), so a click on an
already-applied index never reaches the handler, and the rewrite list is
indexed by `results.rewrites.map((rewrite, i) => ...)` (line 1037). -/
def applyRewrite (rewrites : List Rewrite) (index : Nat) (s : Session) :
    Session :=
  if index ∈ s.appliedRewrites then s
  else
    match rewrites[index]? with
    | none => s
    | some r => handleApplyRewrite r index s

/-- `handleStartOver` (App.jsx lines 562-571): discard all session state. -/
def handleStartOver (_s : Session) : Session :=
  Session.mk [] ∅ false none

/-- Outcome of one `model.generateContent` attempt, as classified by
`generateWithRetry` (server/index.js lines 76-79): `rateLimited` when
`err.status === 429` or the message contains `RESOURCE_EXHAUSTED` or `429`;
`fatal` for every other thrown error. -/
inductive AttemptOutcome where
  | ok
  | rateLimited
  | fatal
deriving DecidableEq, Repr

/-- Result of a `generateWithRetry` run: success or a propagated throw at a
given attempt number, with the list of backoff delays (ms) slept before it.
`exhausted` models the loop falling through (only possible for a zero
attempt cap). -/
inductive RetryResult where
  | success (attempt : Nat) (delays : List Nat)
  | thrown (attempt : Nat) (isRateLimit : Bool) (delays : List Nat)
  | exhausted (delays : List Nat)
deriving DecidableEq, Repr

/-- The retry loop of `generateWithRetry` (server/index.js lines 70-90,
api/analyze.js lines 38-57): `for (attempt = 1; attempt <= maxRetries;
attempt++)`, retrying only rate-limit failures while `attempt < maxRetries`
after sleeping `attempt * 5000` ms, and rethrowing everything else. -/
def generateWithRetryGo (outcomes : Nat → AttemptOutcome) (maxRetries : Nat) :
    Nat → Nat → List Nat → RetryResult
  | 0, _attempt, delays => .exhausted delays.reverse
  | fuel + 1, attempt, delays =>
    if attempt ≤ maxRetries then
      match outcomes attempt with
      | .ok => .success attempt delays.reverse
      | .rateLimited =>
        if attempt < maxRetries then
          generateWithRetryGo outcomes maxRetries fuel (attempt + 1)
            (attempt * 5000 :: delays)
        else .thrown attempt true delays.reverse
      | .fatal => .thrown attempt false delays.reverse
    else .exhausted delays.reverse

/-- `generateWithRetry(prompt)` with the default cap `maxRetries = 3`, the
value used by both call sites.  The fuel `maxRetries` bounds the number of
loop iterations (`attempt` runs from 1 to `maxRetries`), so the worker runs
exactly the JS `for` loop. -/
def generateWithRetry (outcomes : Nat → AttemptOutcome) : RetryResult :=
  generateWithRetryGo outcomes 3 3 1 []

/-- Splice `r` over the half-open range `[a, b)` of `s` (the spec-side
description "`newText` = `liveText` with `[start, end)` replaced"). -/
def replaceRange (s : List Char) (a b : Nat) (r : List Char) : List Char :=
  s.take a ++ r ++ s.drop b

/-- Number of maximal non-whitespace runs ("whitespace-delimited words" in the
ordinary sense) of a string; worker with an `inWord` flag. -/
def wordRunsAux (inWord : Bool) : List Char → Nat
  | [] => 0
  | c :: rest =>
    if jsWhitespace c then wordRunsAux false rest
    else (if inWord then 0 else 1) + wordRunsAux true rest

/-- Number of whitespace-delimited words of a string. -/
def wordRuns (s : List Char) : Nat := wordRunsAux false s

/-- Number of maximal whitespace runs, given whether the previous character
was whitespace (proof-side counter used to relate `splitWs` to `wordRuns`). -/
def wsRunsAux (prevWs : Bool) : List Char → Nat
  | [] => 0
  | c :: rest =>
    if jsWhitespace c then (if prevWs then 0 else 1) + wsRunsAux true rest
    else wsRunsAux false rest

/-- Whether the last character of `l` (or `b` if `l` is empty) is whitespace:
the state of the collapse automaton after processing `l` from state `b`. -/
def lastWsB : Bool → List Char → Bool
  | b, [] => b
  | _, c :: rest => lastWsB (jsWhitespace c) rest

/-- The normalized-position counter value of the mapping loop after the first
`ri` characters of `text`: the collapsed length of the prefix. -/
def cntC (text : List Char) (ri : Nat) : Nat :=
  (collapseWsAux false (text.take ri)).length

/-! ### Generic helper lemmas -/

theorem locate_eq_none {liveText original : List Char}
    (h1 : jsIndexOf liveText original = none)
    (h2 : tier2 liveText original = none)
    (h3 : tier3 liveText original = none) :
    locate liveText original = none := by
  simp [locate, h1, h2, h3]

theorem handleApplyRewrite_of_none {r : Rewrite} {index : Nat} {s : Session}
    (h : locateAndReplace s.resumeText r.original r.suggested = none) :
    handleApplyRewrite r index s =
      Session.mk s.resumeText s.appliedRewrites true s.highlightRange := by
  simp [handleApplyRewrite, h]

/-! ### Specification of `jsIndexOf` -/

theorem matchesAt_iff : ∀ (pat s : List Char),
    matchesAt pat s = true ↔ ∃ t, s = pat ++ t
  | [], s => by simp [matchesAt]
  | _ :: _, [] => by simp [matchesAt]
  | p :: ps, c :: cs => by
    simp only [matchesAt, Bool.and_eq_true, beq_iff_eq, matchesAt_iff ps cs,
      List.cons_append, List.cons.injEq]
    constructor
    · rintro ⟨hpc, t, ht⟩
      exact ⟨t, hpc.symm, ht⟩
    · rintro ⟨t, hcp, ht⟩
      exact ⟨hcp.symm, t, ht⟩

theorem jsIndexOfAux_spec_some (pat : List Char) : ∀ (s : List Char) (i j : Nat),
    jsIndexOfAux pat i s = some j →
    i ≤ j ∧ j - i ≤ s.length ∧ matchesAt pat (s.drop (j - i)) = true ∧
    ∀ q, i ≤ q → q < j → matchesAt pat (s.drop (q - i)) = false
  | [], i, j => by
    simp only [jsIndexOfAux]
    split
    · rename_i hm
      intro h
      obtain rfl : i = j := by simpa using h
      exact ⟨le_refl i, by simp, by simpa using hm, fun q h1 h2 => absurd h1 (by omega)⟩
    · intro h; simp at h
  | c :: rest, i, j => by
    simp only [jsIndexOfAux]
    split
    · rename_i hm
      intro h
      obtain rfl : i = j := by simpa using h
      exact ⟨le_refl i, by simp, by simpa using hm, fun q h1 h2 => absurd h1 (by omega)⟩
    · rename_i hm
      intro h
      obtain ⟨h1, h2, h3, h4⟩ := jsIndexOfAux_spec_some pat rest (i + 1) j h
      refine ⟨by omega, by simp; omega, ?_, ?_⟩
      · have : j - i = (j - (i + 1)) + 1 := by omega
        rw [this, List.drop_succ_cons]
        exact h3
      · intro q hq1 hq2
        rcases Nat.eq_or_lt_of_le hq1 with rfl | hlt
        · simpa [Nat.sub_self] using hm
        · have : q - i = (q - (i + 1)) + 1 := by omega
          rw [this, List.drop_succ_cons]
          exact h4 q hlt hq2

theorem jsIndexOfAux_spec_none (pat : List Char) : ∀ (s : List Char) (i : Nat),
    jsIndexOfAux pat i s = none →
    ∀ q, i ≤ q → matchesAt pat (s.drop (q - i)) = false
  | [], i => by
    simp only [jsIndexOfAux]
    split
    · intro h; simp at h
    · rename_i hm
      intro _ q _
      simpa using hm
  | c :: rest, i => by
    simp only [jsIndexOfAux]
    split
    · intro h; simp at h
    · rename_i hm
      intro h q hq
      rcases Nat.eq_or_lt_of_le hq with rfl | hlt
      · simpa [Nat.sub_self] using hm
      · have : q - i = (q - (i + 1)) + 1 := by omega
        rw [this, List.drop_succ_cons]
        exact jsIndexOfAux_spec_none pat rest (i + 1) h q hlt

theorem jsIndexOf_spec_some {s pat : List Char} {j : Nat}
    (h : jsIndexOf s pat = some j) :
    j ≤ s.length ∧ matchesAt pat (s.drop j) = true ∧
    ∀ q, q < j → matchesAt pat (s.drop q) = false := by
  obtain ⟨_, h2, h3, h4⟩ := jsIndexOfAux_spec_some pat s 0 j h
  exact ⟨by omega, by simpa using h3,
    fun q hq => by simpa using h4 q (Nat.zero_le q) hq⟩

theorem jsIndexOf_spec_none {s pat : List Char}
    (h : jsIndexOf s pat = none) :
    ∀ q, matchesAt pat (s.drop q) = false := fun q => by
  simpa using jsIndexOfAux_spec_none pat s 0 h q (Nat.zero_le q)

theorem jsIndexOf_of_occurs {s pat : List Char}
    (h : ∃ pre post, s = pre ++ pat ++ post) :
    ∃ j, jsIndexOf s pat = some j := by
  cases hidx : jsIndexOf s pat with
  | some j => exact ⟨j, rfl⟩
  | none =>
    obtain ⟨pre, post, rfl⟩ := h
    have hfalse := jsIndexOf_spec_none hidx pre.length
    rw [List.append_assoc, List.drop_left] at hfalse
    rw [(matchesAt_iff pat (pat ++ post)).2 ⟨post, rfl⟩] at hfalse
    exact absurd hfalse (by simp)

theorem jsIndexOf_bound {s pat : List Char} {j : Nat}
    (h : jsIndexOf s pat = some j) : j + pat.length ≤ s.length := by
  obtain ⟨h1, h2, _⟩ := jsIndexOf_spec_some h
  obtain ⟨t, ht⟩ := (matchesAt_iff _ _).1 h2
  have := congrArg List.length ht
  simp [List.length_drop] at this
  omega

/-- A `matchesAt` hit at the drop is exactly a decomposition of the text. -/
theorem drop_decomp {s pat : List Char} {j : Nat}
    (hj : j ≤ s.length) (h : matchesAt pat (s.drop j) = true) :
    s = s.take j ++ pat ++ s.drop (j + pat.length) := by
  obtain ⟨t, ht⟩ := (matchesAt_iff _ _).1 h
  have hs : s = s.take j ++ (pat ++ t) := by
    rw [← ht, List.take_append_drop]
  have hdrop : s.drop (j + pat.length) = t := by
    conv_lhs => rw [hs]
    rw [← List.drop_drop]
    rw [List.drop_left' (by simp [List.length_take]; omega)]
    rw [List.drop_left' rfl]
  rw [List.append_assoc, hdrop]
  exact hs

/-! ### The collapse automaton -/

theorem wsAt_eq {text : List Char} {i : Nat} {c : Char}
    (h : text[i]? = some c) : wsAt text i = jsWhitespace c := by
  unfold wsAt
  rw [h]

theorem wsAt_out {text : List Char} {i : Nat} (h : text.length ≤ i) :
    wsAt text i = false := by
  unfold wsAt
  rw [List.getElem?_eq_none h]

theorem lastWsB_cons (b : Bool) (c : Char) (l : List Char) :
    lastWsB b (c :: l) = lastWsB (jsWhitespace c) l := rfl

theorem lastWsB_spec : ∀ (l : List Char) (b : Bool) (c : Char),
    l.getLast? = some c → lastWsB b l = jsWhitespace c
  | [d], b, c, h => by
    obtain rfl : d = c := by simpa using h
    rfl
  | d :: e :: t, b, c, h => by
    rw [List.getLast?_cons_cons] at h
    exact lastWsB_spec (e :: t) (jsWhitespace d) c h

theorem collapseWsAux_append : ∀ (l t : List Char) (b : Bool),
    collapseWsAux b (l ++ t) =
      collapseWsAux b l ++ collapseWsAux (lastWsB b l) t
  | [], t, b => by simp [collapseWsAux, lastWsB]
  | c :: l', t, b => by
    rw [List.cons_append]
    by_cases hc : jsWhitespace c = true
    · cases b <;>
        simp [collapseWsAux, hc, lastWsB_cons,
          collapseWsAux_append l' t true]
    · simp [collapseWsAux, hc, lastWsB_cons,
        collapseWsAux_append l' t false]

theorem collapseWsAux_true_all_ws : ∀ {l : List Char},
    (∀ c ∈ l, jsWhitespace c = true) → collapseWsAux true l = []
  | [], _ => rfl
  | c :: l', h => by
    have hc := h c (by simp)
    have h' : ∀ d ∈ l', jsWhitespace d = true := fun d hd => h d (by simp [hd])
    simp [collapseWsAux, hc, collapseWsAux_true_all_ws h']

theorem collapseWsAux_false_all_ws : ∀ {l : List Char},
    (∀ c ∈ l, jsWhitespace c = true) →
    collapseWsAux false l = [] ∨ collapseWsAux false l = [' ']
  | [], _ => Or.inl rfl
  | c :: l', h => by
    have hc := h c (by simp)
    have h' : ∀ d ∈ l', jsWhitespace d = true := fun d hd => h d (by simp [hd])
    right
    simp [collapseWsAux, hc, collapseWsAux_true_all_ws h']

theorem lastWsB_take (text : List Char) (ri : Nat) (h1 : 1 ≤ ri)
    (h2 : ri ≤ text.length) :
    lastWsB false (text.take ri) = wsAt text (ri - 1) := by
  have hlt : ri - 1 < text.length := by omega
  obtain ⟨c, hc⟩ : ∃ c, text[ri - 1]? = some c :=
    ⟨_, List.getElem?_eq_getElem hlt⟩
  have hgl : (text.take ri).getLast? = some c := by
    rw [List.getLast?_eq_getElem?, List.length_take, Nat.min_eq_left h2,
      List.getElem?_take, if_pos (by omega)]
    exact hc
  rw [lastWsB_spec _ false c hgl, wsAt_eq hc]

theorem lastWsB_slice (text : List Char) (s ri : Nat) (h1 : s < ri)
    (h2 : ri ≤ text.length) :
    lastWsB false ((text.drop s).take (ri - s)) = wsAt text (ri - 1) := by
  have hlt : ri - 1 < text.length := by omega
  obtain ⟨c, hc⟩ : ∃ c, text[ri - 1]? = some c :=
    ⟨_, List.getElem?_eq_getElem hlt⟩
  have hgl : ((text.drop s).take (ri - s)).getLast? = some c := by
    rw [List.getLast?_eq_getElem?, List.length_take, List.length_drop,
      Nat.min_eq_left (by omega), List.getElem?_take, if_pos (by omega),
      List.getElem?_drop]
    have h3 : s + (ri - s - 1) = ri - 1 := by omega
    rw [h3]
    exact hc
  rw [lastWsB_spec _ false c hgl, wsAt_eq hc]

theorem slice_snoc (text : List Char) (s ri : Nat) (c : Char)
    (h1 : s ≤ ri) (hc : text[ri]? = some c) :
    (text.drop s).take (ri + 1 - s) = (text.drop s).take (ri - s) ++ [c] := by
  have h2 : ri + 1 - s = (ri - s) + 1 := by omega
  rw [h2, List.take_succ, List.getElem?_drop]
  have h3 : s + (ri - s) = ri := by omega
  rw [h3, hc]
  rfl

theorem take_one_of_getElem {text : List Char} {ri : Nat} {c : Char}
    (hc : text[ri]? = some c) :
    (text.drop ri).take 1 = [c] := by
  obtain ⟨hlt, hget⟩ := List.getElem?_eq_some.1 hc
  rw [List.drop_eq_getElem_cons hlt, hget]
  rfl

theorem cntC_zero (text : List Char) : cntC text 0 = 0 := rfl

theorem cntC_len (text : List Char) :
    cntC text text.length = (collapseWs text).length := by
  unfold cntC collapseWs
  rw [List.take_length]

theorem cntC_succ_contrib (text : List Char) (ri : Nat) (c : Char)
    (hc : text[ri]? = some c)
    (hcontrib : wsAt text ri = false ∨ ri = 0 ∨ wsAt text (ri - 1) = false) :
    cntC text (ri + 1) = cntC text ri + 1 := by
  have hri : ri < text.length := (List.getElem?_eq_some.1 hc).1
  unfold cntC
  rw [List.take_succ, hc, Option.toList_some, collapseWsAux_append,
    List.length_append]
  congr 1
  rcases hcontrib with hne | rfl | hprev
  · rw [wsAt_eq hc] at hne
    simp [collapseWsAux, hne]
  · simp only [List.take_zero]
    by_cases hwc : jsWhitespace c = true <;> simp [collapseWsAux, hwc, lastWsB]
  · have hflag : lastWsB false (text.take ri) = false := by
      rcases Nat.eq_zero_or_pos ri with rfl | hpos
      · simp [lastWsB]
      · rw [lastWsB_take text ri hpos (by omega)]
        exact hprev
    rw [hflag]
    by_cases hwc : jsWhitespace c = true <;> simp [collapseWsAux, hwc]

theorem cntC_succ_skip (text : List Char) (ri : Nat) (c : Char)
    (hc : text[ri]? = some c)
    (hws : wsAt text ri = true) (hri0 : ri ≠ 0)
    (hprev : wsAt text (ri - 1) = true) :
    cntC text (ri + 1) = cntC text ri := by
  unfold cntC
  rw [List.take_succ, hc, Option.toList_some, collapseWsAux_append]
  have hflag : lastWsB false (text.take ri) = true := by
    rw [lastWsB_take text ri (by omega)
      (by have := (List.getElem?_eq_some.1 hc).1; omega)]
    exact hprev
  rw [hflag, wsAt_eq hc] at *
  simp [collapseWsAux, hws]

theorem cntC_mono (text : List Char) : ∀ (i j : Nat), i ≤ j →
    cntC text i ≤ cntC text j := by
  intro i j hij
  induction j with
  | zero =>
    obtain rfl : i = 0 := by omega
    exact le_refl _
  | succ j ih =>
    rcases Nat.eq_or_lt_of_le hij with rfl | hlt
    · exact le_refl _
    · refine le_trans (ih (by omega)) ?_
      by_cases hj : j < text.length
      · obtain ⟨c, hc⟩ : ∃ c, text[j]? = some c := by
          have := List.getElem?_eq_getElem hj
          exact ⟨_, this⟩
        unfold cntC
        rw [List.take_succ, hc, Option.toList_some, collapseWsAux_append,
          List.length_append]
        omega
      · unfold cntC
        rw [List.take_succ, List.getElem?_eq_none (by omega)]
        simp

/-- The character that a contributing position `ri` supplies to the collapsed
text: position `cntC text ri` of `collapseWs text` holds `' '` if `text[ri]`
is whitespace (then `ri` starts a run) and `text[ri]` itself otherwise. -/
theorem collapse_getElem_contrib (text : List Char) (ri : Nat) (c : Char)
    (hc : text[ri]? = some c)
    (hcontrib : wsAt text ri = false ∨ ri = 0 ∨ wsAt text (ri - 1) = false) :
    (collapseWs text)[cntC text ri]? =
      some (if jsWhitespace c = true then ' ' else c) := by
  have hri : ri < text.length := (List.getElem?_eq_some.1 hc).1
  have hdecomp : collapseWs text =
      collapseWsAux false (text.take ri) ++
        collapseWsAux (lastWsB false (text.take ri)) (text.drop ri) := by
    unfold collapseWs
    conv_lhs => rw [← List.take_append_drop ri text]
    exact collapseWsAux_append _ _ _
  have hdrop : text.drop ri = c :: text.drop (ri + 1) := by
    rw [List.drop_eq_getElem_cons hri, (List.getElem?_eq_some.1 hc).2]
  have hflag : jsWhitespace c = true → lastWsB false (text.take ri) = false := by
    intro hwc
    rcases hcontrib with hne | rfl | hprev
    · rw [wsAt_eq hc, hwc] at hne
      exact absurd hne (by simp)
    · simp [lastWsB]
    · rcases Nat.eq_zero_or_pos ri with rfl | hpos
      · simp [lastWsB]
      · rw [lastWsB_take text ri hpos (by omega)]
        exact hprev
  have hcnt : cntC text ri = (collapseWsAux false (text.take ri)).length := rfl
  rw [hdecomp, hcnt, List.getElem?_append_right (le_refl _), Nat.sub_self]
  rw [hdrop]
  by_cases hwc : jsWhitespace c = true
  · rw [hflag hwc]
    simp [collapseWsAux, hwc]
  · simp [collapseWsAux, hwc]

theorem extendEndGo_all_ws (text : List Char) :
    ∀ (fuel e j : Nat), e ≤ j → j < extendEndGo text fuel e →
      wsAt text j = true
  | 0, e, j, hej, hlt => absurd hlt (by simp [extendEndGo]; omega)
  | fuel + 1, e, j, hej, hlt => by
    rw [extendEndGo] at hlt
    split at hlt
    · rename_i hcond
      split at hlt
      · omega
      · rcases Nat.eq_or_lt_of_le hej with rfl | hlt'
        · exact hcond.2.1
        · exact extendEndGo_all_ws text fuel (e + 1) j hlt' hlt
    · omega

theorem extendEndGo_stop (text : List Char) :
    ∀ (fuel e : Nat), text.length ≤ e + fuel →
    wsAt text (extendEndGo text fuel e) = false ∨
      wsAt text (extendEndGo text fuel e + 1) = false
  | 0, e, hfuel => by
    rw [extendEndGo]
    exact Or.inl (wsAt_out (by omega))
  | fuel + 1, e, hfuel => by
    rw [extendEndGo]
    split
    · rename_i hcond
      split
      · rename_i hnext
        exact Or.inr hnext
      · exact extendEndGo_stop text fuel (e + 1) (by omega)
    · rename_i hcond
      by_cases he : e < text.length
      · by_cases hwe : wsAt text e = true
        · exact absurd ⟨he, hwe, Or.inr hwe⟩ hcond
        · exact Or.inl (by simpa using hwe)
      · exact Or.inl (wsAt_out (by omega))

theorem extendEnd_all_ws (text : List Char) (e j : Nat) (hej : e ≤ j)
    (hlt : j < extendEnd text e) : wsAt text j = true :=
  extendEndGo_all_ws text (text.length - e) e j hej hlt

theorem extendEnd_stop (text : List Char) (e : Nat) :
    wsAt text (extendEnd text e) = false ∨
      wsAt text (extendEnd text e + 1) = false :=
  extendEndGo_stop text (text.length - e) e (by omega)

theorem ws_of_mem_slice (text : List Char) (a b : Nat)
    (hws : ∀ j, a ≤ j → j < b → wsAt text j = true) :
    ∀ c ∈ (text.drop a).take (b - a), jsWhitespace c = true := by
  intro c hc
  obtain ⟨i, hi, hget⟩ := List.mem_iff_getElem.1 hc
  have hi' : i < b - a ∧ a + i < text.length := by
    rw [List.length_take, List.length_drop] at hi
    omega
  have hgot : text[a + i]? = some c := by
    have h1 : ((text.drop a).take (b - a))[i]? = some c := by
      rw [List.getElem?_eq_some]
      exact ⟨hi, hget⟩
    rw [List.getElem?_take, if_pos hi'.1, List.getElem?_drop] at h1
    exact h1
  have := hws (a + i) (by omega) (by omega)
  rw [wsAt_eq hgot] at this
  exact this

theorem mapLoopGo_stop (text : List Char) (normPos normLen : Nat) :
    ∀ (fuel ri normI : Nat) (rs : Option Nat) (e : Nat),
    mapLoopGo text normPos normLen fuel ri normI rs (some e) = (rs, some e)
  | 0, _, _, _, _ => rfl
  | fuel + 1, ri, normI, rs, e => by
    rw [mapLoopGo, if_neg (by simp)]

/-! ### Range bounds for the three tiers -/

theorem extendEndGo_ge (text : List Char) :
    ∀ (fuel e : Nat), e ≤ extendEndGo text fuel e
  | 0, e => le_refl e
  | fuel + 1, e => by
    simp only [extendEndGo]
    split
    · split
      · exact le_refl e
      · exact le_trans (by omega) (extendEndGo_ge text fuel (e + 1))
    · exact le_refl e

theorem extendEndGo_le (text : List Char) :
    ∀ (fuel e : Nat), e ≤ text.length → extendEndGo text fuel e ≤ text.length
  | 0, e, he => he
  | fuel + 1, e, he => by
    simp only [extendEndGo]
    split
    · split
      · exact he
      · rename_i hcond _
        exact extendEndGo_le text fuel (e + 1) (by omega)
    · exact he

theorem extendEnd_ge (text : List Char) (e : Nat) : e ≤ extendEnd text e :=
  extendEndGo_ge text (text.length - e) e

theorem extendEnd_le (text : List Char) (e : Nat) (he : e ≤ text.length) :
    extendEnd text e ≤ text.length :=
  extendEndGo_le text (text.length - e) e he

theorem mapLoopGo_bounds (text : List Char) (normPos normLen : Nat) :
    ∀ (fuel ri normI : Nat) (rs re : Option Nat),
    (∀ a, rs = some a → a < text.length ∧ (re = none → a < ri)) →
    (∀ e, re = some e → e ≤ text.length ∧ ∀ a, rs = some a → a < e) →
    ∀ a e, mapLoopGo text normPos normLen fuel ri normI rs re = (some a, some e) →
      a < e ∧ e ≤ text.length := by
  intro fuel
  induction fuel with
  | zero =>
    intro ri normI rs re h1 h2 a e h
    simp only [mapLoopGo, Prod.mk.injEq] at h
    obtain ⟨he1, he2⟩ := h2 e h.2
    exact ⟨he2 a h.1, he1⟩
  | succ fuel ih =>
    intro ri normI rs re h1 h2 a e h
    simp only [mapLoopGo] at h
    by_cases hg : ri < text.length ∧ re = none
    swap
    · rw [if_neg hg, Prod.mk.injEq] at h
      obtain ⟨he1, he2⟩ := h2 e h.2
      exact ⟨he2 a h.1, he1⟩
    obtain ⟨hri, hre⟩ := hg
    rw [if_pos ⟨hri, hre⟩] at h
    subst hre
    by_cases hws : wsAt text ri = true
    · rw [if_pos hws] at h
      by_cases hrun : ri = 0 ∨ wsAt text (ri - 1) = false
      · rw [if_pos hrun] at h
        refine ih (ri + 1) (normI + 1) _ _ ?_ ?_ a e h
        · intro a' ha'
          by_cases hstart : normI = normPos ∧ rs = none
          · rw [if_pos hstart] at ha'
            obtain rfl := Option.some.inj ha'
            exact ⟨hri, fun _ => Nat.lt_succ_self ri⟩
          · rw [if_neg hstart] at ha'
            obtain ⟨hl1, hl2⟩ := h1 a' ha'
            exact ⟨hl1, fun _ => Nat.lt_succ_of_lt (hl2 rfl)⟩
        · intro e' he'
          by_cases hcross : normI + 1 = normPos + normLen ∧
              (if normI = normPos ∧ rs = none then some ri else rs) ≠ none
          · rw [if_pos hcross] at he'
            obtain rfl := Option.some.inj he'
            refine ⟨by omega, ?_⟩
            intro a' ha'
            by_cases hstart : normI = normPos ∧ rs = none
            · rw [if_pos hstart] at ha'
              obtain rfl := Option.some.inj ha'
              omega
            · rw [if_neg hstart] at ha'
              exact Nat.lt_succ_of_lt ((h1 a' ha').2 rfl)
          · rw [if_neg hcross] at he'
            exact absurd he' (by simp)
      · rw [if_neg hrun] at h
        refine ih (ri + 1) normI rs _ ?_ ?_ a e h
        · intro a' ha'
          obtain ⟨hl1, hl2⟩ := h1 a' ha'
          exact ⟨hl1, fun _ => Nat.lt_succ_of_lt (hl2 rfl)⟩
        · intro e' he'
          by_cases hcross : normI = normPos + normLen ∧ rs ≠ none
          · rw [if_pos hcross] at he'
            obtain rfl := Option.some.inj he'
            exact ⟨Nat.le_of_lt hri, fun a' ha' => (h1 a' ha').2 rfl⟩
          · rw [if_neg hcross] at he'
            exact absurd he' (by simp)
    · rw [if_neg hws] at h
      refine ih (ri + 1) (normI + 1) _ _ ?_ ?_ a e h
      · intro a' ha'
        by_cases hstart : normI = normPos ∧ rs = none
        · rw [if_pos hstart] at ha'
          obtain rfl := Option.some.inj ha'
          exact ⟨hri, fun _ => Nat.lt_succ_self ri⟩
        · rw [if_neg hstart] at ha'
          obtain ⟨hl1, hl2⟩ := h1 a' ha'
          exact ⟨hl1, fun _ => Nat.lt_succ_of_lt (hl2 rfl)⟩
      · intro e' he'
        by_cases hcross : normI + 1 = normPos + normLen ∧
            (if normI = normPos ∧ rs = none then some ri else rs) ≠ none
        · rw [if_pos hcross] at he'
          obtain rfl := Option.some.inj he'
          have hge := extendEnd_ge text (ri + 1)
          refine ⟨extendEnd_le text (ri + 1) (by omega), ?_⟩
          intro a' ha'
          by_cases hstart : normI = normPos ∧ rs = none
          · rw [if_pos hstart] at ha'
            obtain rfl := Option.some.inj ha'
            omega
          · rw [if_neg hstart] at ha'
            have := (h1 a' ha').2 rfl
            omega
        · rw [if_neg hcross] at he'
          exact absurd he' (by simp)

theorem mapLoop_bounds {text : List Char} {normPos normLen a e : Nat}
    (h : mapLoop text normPos normLen 0 0 none none = (some a, some e)) :
    a < e ∧ e ≤ text.length :=
  mapLoopGo_bounds text normPos normLen (text.length - 0) 0 0 none none
    (by simp) (by simp) a e h

theorem tier2_bounds {liveText original : List Char} {pos mlen : Nat}
    (h : tier2 liveText original = some (pos, mlen)) :
    pos + mlen ≤ liveText.length ∧ 0 < mlen := by
  simp only [tier2] at h
  split at h
  · simp at h
  · rename_i normPos _
    split at h
    · rename_i a e hml
      have hb := mapLoop_bounds hml
      have h12 : a = pos ∧ e - a = mlen := by simpa using h
      omega
    · simp at h

theorem tier3Go_bounds {liveText : List Char} {words : List (List Char)}
    {pos mlen : Nat} :
    ∀ {len : Nat}, tier3Go liveText words len = some (pos, mlen) →
    pos + mlen ≤ liveText.length
  | 0, h => by simp [tier3Go] at h
  | len + 1, h => by
    simp only [tier3Go] at h
    split at h
    · split at h
      · rename_i fragPos hfrag
        have hb := jsIndexOf_bound hfrag
        rw [List.length_map, List.length_map] at hb
        cases hnl : jsIndexOfFrom liveText ['\n'] fragPos with
        | some e =>
          simp only [hnl] at h
          have h12 : fragPos = pos ∧ e - fragPos = mlen := by simpa using h
          obtain ⟨hs1, hs2, hs3, hs4⟩ :=
            jsIndexOfAux_spec_some ['\n'] (liveText.drop fragPos) fragPos e hnl
          rw [List.length_drop] at hs2
          omega
        | none =>
          simp only [hnl] at h
          have h12 : fragPos = pos ∧ liveText.length - fragPos = mlen := by
            simpa using h
          omega
      · exact tier3Go_bounds h
    · simp at h

theorem locate_bounds {liveText original : List Char} {pos mlen : Nat}
    (h : locate liveText original = some (pos, mlen)) :
    pos + mlen ≤ liveText.length := by
  unfold locate at h
  split at h
  · rename_i j hj
    have h12 : j = pos ∧ original.length = mlen := by simpa using h
    have hb := jsIndexOf_bound hj
    omega
  · split at h
    · rename_i r hr
      have h12 : r = (pos, mlen) := by simpa using h
      subst h12
      exact (tier2_bounds hr).1
    · exact tier3Go_bounds h

/-! ### The tier-2 position-mapping walk -/

theorem seg_take_succ (C : List Char) (normPos normI : Nat)
    (hle : normPos ≤ normI) (x : Char) (hx : C[normI]? = some x) :
    (C.drop normPos).take (normI + 1 - normPos) =
      (C.drop normPos).take (normI - normPos) ++ [x] := by
  have h1 : normI + 1 - normPos = (normI - normPos) + 1 := by omega
  rw [h1, List.take_succ, List.getElem?_drop]
  have h2 : normPos + (normI - normPos) = normI := by omega
  rw [h2, hx]
  rfl

/-- Inside the matched region: once the mapping loop has recorded
`realStart = s` and its counter sits strictly between the normalized match
boundaries, it runs to the crossing character, sets
`realEnd = extendEnd (crossing + 1)`, and the raw slice collapses to the
matched segment of the collapsed text (possibly with one folded trailing
space). -/
theorem mapLoopGo_inside (text : List Char) (normPos normLen : Nat)
    (HB : normPos + normLen ≤ (collapseWs text).length)
    (Hlast : ∀ c, (collapseWs text)[normPos + normLen - 1]? = some c →
      jsWhitespace c = false) :
    ∀ (fuel ri normI s : Nat),
    text.length ≤ ri + fuel →
    ri ≤ text.length →
    s < ri →
    wsAt text s = false →
    normI = cntC text ri →
    normPos < normI →
    normI < normPos + normLen →
    collapseWsAux false ((text.drop s).take (ri - s)) =
      ((collapseWs text).drop normPos).take (normI - normPos) →
    ∃ e0,
      mapLoopGo text normPos normLen fuel ri normI (some s) none =
        (some s, some (extendEnd text e0)) ∧
      s < e0 ∧ e0 ≤ text.length ∧ wsAt text (e0 - 1) = false ∧
      (collapseWsAux false ((text.drop s).take (extendEnd text e0 - s)) =
          ((collapseWs text).drop normPos).take normLen ∨
       collapseWsAux false ((text.drop s).take (extendEnd text e0 - s)) =
          ((collapseWs text).drop normPos).take normLen ++ [' ']) := by
  intro fuel
  induction fuel with
  | zero =>
    intro ri normI s hfuel hrile hsle hsws hnormI hlow hhigh hinv
    exfalso
    obtain rfl : ri = text.length := by omega
    rw [cntC_len] at hnormI
    omega
  | succ fuel ih =>
    intro ri normI s hfuel hrile hsle hsws hnormI hlow hhigh hinv
    have hri : ri < text.length := by
      rcases Nat.eq_or_lt_of_le hrile with rfl | h
      · rw [cntC_len] at hnormI
        omega
      · exact h
    obtain ⟨c, hc⟩ : ∃ c, text[ri]? = some c :=
      ⟨_, List.getElem?_eq_getElem hri⟩
    have hwsri : wsAt text ri = jsWhitespace c := wsAt_eq hc
    rw [mapLoopGo, if_pos ⟨hri, rfl⟩]
    by_cases hwc : jsWhitespace c = true
    · -- whitespace character
      have hws' : wsAt text ri = true := by rw [hwsri]; exact hwc
      rw [if_pos hws']
      have hslt : s < ri := hsle
      by_cases hrun : ri = 0 ∨ wsAt text (ri - 1) = false
      · -- run start: the counter ticks
        rw [if_pos hrun]
        dsimp only
        rw [if_neg (by simp : ¬(normI = normPos ∧ (some s : Option Nat) = none))]
        have hcore := collapse_getElem_contrib text ri c hc (Or.inr hrun)
        rw [← hnormI] at hcore
        rw [hwc] at hcore
        have hne : ¬(normI + 1 = normPos + normLen ∧
            (some s : Option Nat) ≠ none) := by
          rintro ⟨heq, -⟩
          have hidx : normPos + normLen - 1 = normI := by omega
          rw [hidx] at Hlast
          have := Hlast ' ' (by simpa using hcore)
          exact absurd this (by decide)
        rw [if_neg hne]
        have hne' : normI + 1 ≠ normPos + normLen := fun heq => hne ⟨heq, by simp⟩
        have hprev : wsAt text (ri - 1) = false :=
          hrun.resolve_left (by omega)
        refine ih (ri + 1) (normI + 1) s (by omega) (by omega) (by omega)
          hsws ?_ (by omega) (by omega) ?_
        · rw [cntC_succ_contrib text ri c hc (Or.inr hrun)]
          omega
        · rw [slice_snoc text s ri c (by omega) hc, collapseWsAux_append,
            lastWsB_slice text s ri hslt (by omega), hprev, hinv,
            seg_take_succ (collapseWs text) normPos normI (by omega) ' '
              (by simpa using hcore)]
          congr 1
          simp [collapseWsAux, hwc]
      · -- run continuation: the counter does not tick
        rw [if_neg hrun]
        dsimp only
        rw [if_neg (fun hcc => absurd hcc.1 (by omega) :
          ¬(normI = normPos + normLen ∧ (some s : Option Nat) ≠ none))]
        push_neg at hrun
        obtain ⟨hri0, hprev⟩ := hrun
        have hprev' : wsAt text (ri - 1) = true := by
          cases hval : wsAt text (ri - 1)
          · exact absurd hval hprev
          · rfl
        refine ih (ri + 1) normI s (by omega) (by omega) (by omega)
          hsws ?_ (by omega) (by omega) ?_
        · rw [cntC_succ_skip text ri c hc hws' hri0 hprev']
          exact hnormI
        · rw [slice_snoc text s ri c (by omega) hc, collapseWsAux_append,
            lastWsB_slice text s ri hslt (by omega), hprev', hinv]
          simp [collapseWsAux, hwc]
    · -- non-whitespace character
      have hwc' : jsWhitespace c = false := by simpa using hwc
      have hws' : wsAt text ri = false := by rw [hwsri]; exact hwc'
      rw [if_neg (by rw [hws']; simp)]
      dsimp only
      rw [if_neg (by simp : ¬(normI = normPos ∧ (some s : Option Nat) = none))]
      have hcore := collapse_getElem_contrib text ri c hc (Or.inl hws')
      rw [← hnormI, hwc'] at hcore
      have hcore' : (collapseWs text)[normI]? = some c := by
        simpa using hcore
      have hsnoc : collapseWsAux false ((text.drop s).take (ri + 1 - s)) =
          ((collapseWs text).drop normPos).take (normI + 1 - normPos) := by
        rw [slice_snoc text s ri c (by omega) hc, collapseWsAux_append, hinv,
          seg_take_succ (collapseWs text) normPos normI (by omega) c
            hcore']
        congr 1
        have hone : ∀ b, collapseWsAux b [c] = [c] := by
          intro b
          simp [collapseWsAux, hwc']
        exact hone _
      by_cases hcross : normI + 1 = normPos + normLen
      · -- the boundary is crossed here
        rw [if_pos ⟨hcross, by simp⟩, mapLoopGo_stop]
        refine ⟨ri + 1, rfl, by omega, by omega, ?_, ?_⟩
        · simpa using hws'
        · have hE1 : ri + 1 ≤ extendEnd text (ri + 1) :=
            extendEnd_ge text (ri + 1)
          have hEle : extendEnd text (ri + 1) ≤ text.length :=
            extendEnd_le text (ri + 1) (by omega)
          have hsplit : (text.drop s).take (extendEnd text (ri + 1) - s) =
              (text.drop s).take (ri + 1 - s) ++
                (text.drop (ri + 1)).take (extendEnd text (ri + 1) - (ri + 1)) := by
            have h1 : extendEnd text (ri + 1) - s =
                (ri + 1 - s) + (extendEnd text (ri + 1) - (ri + 1)) := by omega
            rw [h1, List.take_add]
            congr 2
            rw [List.drop_drop]
            congr 1
            omega
          rw [hsplit, collapseWsAux_append, hsnoc]
          have hfull : normI + 1 - normPos = normLen := by omega
          rw [hfull]
          have hflag : lastWsB false ((text.drop s).take (ri + 1 - s)) =
              false := by
            rw [lastWsB_slice text s (ri + 1) (by omega) (by omega)]
            simpa using hws'
          rw [hflag]
          have hallws : ∀ d ∈ (text.drop (ri + 1)).take
              (extendEnd text (ri + 1) - (ri + 1)), jsWhitespace d = true :=
            ws_of_mem_slice text (ri + 1) (extendEnd text (ri + 1))
              (fun j hj1 hj2 => extendEnd_all_ws text (ri + 1) j hj1 hj2)
          rcases collapseWsAux_false_all_ws hallws with hnil | hsp
          · left
            rw [hnil, List.append_nil]
          · right
            rw [hsp]
      · -- not yet at the boundary: keep walking
        rw [if_neg (fun hcc => hcross hcc.1)]
        refine ih (ri + 1) (normI + 1) s (by omega) (by omega) (by omega)
          hsws ?_ (by omega) (by omega) hsnoc
        rw [cntC_succ_contrib text ri c hc (Or.inl hws')]
        omega

/-- Before the matched region: starting the mapping loop with both offsets
unset and the counter at most `normPos`, the loop records `realStart` at the
raw position of the normalized match start (a non-whitespace character) and
then behaves as `mapLoopGo_inside`. -/
theorem mapLoopGo_search (text : List Char) (normPos normLen : Nat)
    (HB : normPos + normLen ≤ (collapseWs text).length)
    (HL : 1 ≤ normLen)
    (Hfirst : ∀ c, (collapseWs text)[normPos]? = some c →
      jsWhitespace c = false)
    (Hlast : ∀ c, (collapseWs text)[normPos + normLen - 1]? = some c →
      jsWhitespace c = false) :
    ∀ (fuel ri normI : Nat),
    text.length ≤ ri + fuel →
    ri ≤ text.length →
    normI = cntC text ri →
    normI ≤ normPos →
    ∃ s e0,
      mapLoopGo text normPos normLen fuel ri normI none none =
        (some s, some (extendEnd text e0)) ∧
      s < e0 ∧ e0 ≤ text.length ∧ s < text.length ∧
      wsAt text s = false ∧ wsAt text (e0 - 1) = false ∧
      (collapseWsAux false ((text.drop s).take (extendEnd text e0 - s)) =
          ((collapseWs text).drop normPos).take normLen ∨
       collapseWsAux false ((text.drop s).take (extendEnd text e0 - s)) =
          ((collapseWs text).drop normPos).take normLen ++ [' ']) := by
  intro fuel
  induction fuel with
  | zero =>
    intro ri normI hfuel hrile hnormI hle
    exfalso
    obtain rfl : ri = text.length := by omega
    rw [cntC_len] at hnormI
    omega
  | succ fuel ih =>
    intro ri normI hfuel hrile hnormI hle
    have hri : ri < text.length := by
      rcases Nat.eq_or_lt_of_le hrile with rfl | h
      · rw [cntC_len] at hnormI
        omega
      · exact h
    obtain ⟨c, hc⟩ : ∃ c, text[ri]? = some c :=
      ⟨_, List.getElem?_eq_getElem hri⟩
    have hwsri : wsAt text ri = jsWhitespace c := wsAt_eq hc
    rw [mapLoopGo, if_pos ⟨hri, rfl⟩]
    by_cases hwc : jsWhitespace c = true
    · have hws' : wsAt text ri = true := by rw [hwsri]; exact hwc
      rw [if_pos hws']
      by_cases hrun : ri = 0 ∨ wsAt text (ri - 1) = false
      · -- run start: realStart cannot be set here, as the collapsed
        -- character would be a space while the match starts with non-space
        rw [if_pos hrun]
        dsimp only
        have hstart : ¬(normI = normPos ∧ (none : Option Nat) = none) := by
          rintro ⟨heq, -⟩
          have hcore := collapse_getElem_contrib text ri c hc (Or.inr hrun)
          rw [← hnormI, heq, hwc] at hcore
          have := Hfirst ' ' (by simpa using hcore)
          exact absurd this (by decide)
        rw [if_neg hstart,
          if_neg (by simp :
            ¬(normI + 1 = normPos + normLen ∧ (none : Option Nat) ≠ none))]
        refine ih (ri + 1) (normI + 1) (by omega) (by omega) ?_ ?_
        · rw [cntC_succ_contrib text ri c hc (Or.inr hrun)]
          omega
        · have hne : normI ≠ normPos := fun h => hstart ⟨h, rfl⟩
          omega
      · -- run continuation
        rw [if_neg hrun]
        dsimp only
        rw [if_neg (by simp :
          ¬(normI = normPos + normLen ∧ (none : Option Nat) ≠ none))]
        push_neg at hrun
        obtain ⟨hri0, hprev⟩ := hrun
        have hprev' : wsAt text (ri - 1) = true := by
          cases hval : wsAt text (ri - 1)
          · exact absurd hval hprev
          · rfl
        refine ih (ri + 1) normI (by omega) (by omega) ?_ hle
        rw [cntC_succ_skip text ri c hc hws' hri0 hprev']
        exact hnormI
    · -- non-whitespace character
      have hwc' : jsWhitespace c = false := by simpa using hwc
      have hws' : wsAt text ri = false := by rw [hwsri]; exact hwc'
      rw [if_neg (by rw [hws']; simp)]
      dsimp only
      by_cases hstart : normI = normPos
      · -- realStart is set at ri
        rw [if_pos ⟨hstart, rfl⟩]
        have hcore := collapse_getElem_contrib text ri c hc (Or.inl hws')
        rw [← hnormI, hwc'] at hcore
        have hcore' : (collapseWs text)[normI]? = some c := by
          simpa using hcore
        have hseg1 : ((collapseWs text).drop normPos).take 1 = [c] := by
          rw [List.take_succ]
          simp only [List.take_zero, List.nil_append, List.getElem?_drop,
            Nat.add_zero]
          rw [← hstart, hcore']
          rfl
        by_cases hcross : normI + 1 = normPos + normLen
        · -- normLen = 1: the match ends at this same character
          rw [if_pos ⟨hcross, by simp⟩, mapLoopGo_stop]
          refine ⟨ri, ri + 1, rfl, by omega, by omega, hri, hws',
            by simpa using hws', ?_⟩
          have hE1 : ri + 1 ≤ extendEnd text (ri + 1) :=
            extendEnd_ge text (ri + 1)
          have hEle : extendEnd text (ri + 1) ≤ text.length :=
            extendEnd_le text (ri + 1) (by omega)
          have hsplit : (text.drop ri).take (extendEnd text (ri + 1) - ri) =
              (text.drop ri).take 1 ++
                (text.drop (ri + 1)).take
                  (extendEnd text (ri + 1) - (ri + 1)) := by
            have h1 : extendEnd text (ri + 1) - ri =
                1 + (extendEnd text (ri + 1) - (ri + 1)) := by omega
            rw [h1, List.take_add]
            congr 2
            rw [List.drop_drop]
          have hlen1 : normLen = 1 := by omega
          rw [hsplit, take_one_of_getElem hc, collapseWsAux_append, hlen1,
            hseg1]
          have hone : collapseWsAux false [c] = [c] := by
            simp [collapseWsAux, hwc']
          have hlast1 : lastWsB false [c] = jsWhitespace c := rfl
          rw [hone, hlast1, hwc']
          have hallws : ∀ d ∈ (text.drop (ri + 1)).take
              (extendEnd text (ri + 1) - (ri + 1)), jsWhitespace d = true :=
            ws_of_mem_slice text (ri + 1) (extendEnd text (ri + 1))
              (fun j hj1 hj2 => extendEnd_all_ws text (ri + 1) j hj1 hj2)
          rcases collapseWsAux_false_all_ws hallws with hnil | hsp
          · left
            rw [hnil, List.append_nil]
          · right
            rw [hsp]
        · -- normLen ≥ 2: walk on inside the matched region
          rw [if_neg (fun hcc => hcross hcc.1)]
          obtain ⟨e0, heq, he1, he2, he3, he4⟩ :=
            mapLoopGo_inside text normPos normLen HB Hlast fuel (ri + 1)
              (normI + 1) ri (by omega) (by omega) (by omega) hws'
              (by rw [cntC_succ_contrib text ri c hc (Or.inl hws')]; omega)
              (by omega) (by omega)
              (by
                have h1 : ri + 1 - ri = 1 := by omega
                have h2 : normI + 1 - normPos = 1 := by omega
                rw [h1, h2, take_one_of_getElem hc, hseg1]
                simp [collapseWsAux, hwc'])
          exact ⟨ri, e0, heq, he1, he2, hri, hws', he3, he4⟩
      · -- normI < normPos: keep searching
        rw [if_neg (fun hcc => hstart hcc.1),
          if_neg (by simp :
            ¬(normI + 1 = normPos + normLen ∧ (none : Option Nat) ≠ none))]
        refine ih (ri + 1) (normI + 1) (by omega) (by omega) ?_ (by omega)
        rw [cntC_succ_contrib text ri c hc (Or.inl hws')]
        omega

/-! ### Trimming and lowercasing -/

theorem jsToLower_ws (c : Char) :
    jsWhitespace (jsToLower c) = jsWhitespace c := by
  unfold jsToLower
  split
  · rename_i h
    have hv : (c.toNat + 32).isValidChar := Or.inl (by omega)
    have ht : (Char.ofNat (c.toNat + 32)).toNat = c.toNat + 32 := by
      unfold Char.ofNat
      rw [dif_pos hv]
      rfl
    unfold jsWhitespace
    rw [ht, Bool.eq_iff_iff]
    simp only [Bool.or_eq_true, beq_iff_eq, Bool.and_eq_true,
      decide_eq_true_eq]
    omega
  · rfl

theorem head?_dropWhile_ws : ∀ (l : List Char) (c : Char),
    (l.dropWhile jsWhitespace).head? = some c → jsWhitespace c = false
  | [], c, h => by simp at h
  | d :: t, c, h => by
    rw [List.dropWhile_cons] at h
    split at h
    · exact head?_dropWhile_ws t c h
    · rename_i hd
      obtain rfl : d = c := by simpa using h
      simpa using hd

theorem dropWhile_eq_self_of_head {l : List Char}
    (h : ∀ c, l.head? = some c → jsWhitespace c = false) :
    l.dropWhile jsWhitespace = l := by
  cases l with
  | nil => rfl
  | cons c t =>
    rw [List.dropWhile_cons, if_neg (by rw [h c rfl]; simp)]

theorem trimWs_prefix_decomp (l : List Char)
    (h : ∀ c, l.head? = some c → jsWhitespace c = false) :
    ∃ W, l = trimWs l ++ W := by
  unfold trimWs
  rw [dropWhile_eq_self_of_head h]
  refine ⟨(l.reverse.takeWhile jsWhitespace).reverse, ?_⟩
  conv_lhs => rw [← List.reverse_reverse l,
    ← List.takeWhile_append_dropWhile jsWhitespace l.reverse]
  rw [List.reverse_append]

theorem trimWs_getLast_ws (l : List Char) :
    ∀ c, (trimWs l).getLast? = some c → jsWhitespace c = false := by
  intro c hc
  unfold trimWs at hc
  rw [List.getLast?_reverse] at hc
  exact head?_dropWhile_ws _ c hc

theorem trimWs_head_ws (l : List Char) :
    ∀ c, (trimWs l).head? = some c → jsWhitespace c = false := by
  intro c hc
  unfold trimWs at hc
  rw [List.head?_reverse] at hc
  have hYr : (l.dropWhile jsWhitespace).reverse.getLast? = some c := by
    conv_lhs => rw [← List.takeWhile_append_dropWhile jsWhitespace
      (l.dropWhile jsWhitespace).reverse]
    rw [List.getLast?_append, hc]
    rfl
  rw [List.getLast?_reverse] at hYr
  exact head?_dropWhile_ws l c hYr

theorem trimWs_eq_self {l : List Char}
    (hhead : ∀ c, l.head? = some c → jsWhitespace c = false)
    (hlast : ∀ c, l.getLast? = some c → jsWhitespace c = false) :
    trimWs l = l := by
  unfold trimWs
  rw [dropWhile_eq_self_of_head hhead,
    dropWhile_eq_self_of_head
      (fun c hc => hlast c (by rwa [← List.head?_reverse])),
    List.reverse_reverse]

theorem trimWs_append_space {seg : List Char} (hne : seg ≠ [])
    (hhead : ∀ c, seg.head? = some c → jsWhitespace c = false)
    (hlast : ∀ c, seg.getLast? = some c → jsWhitespace c = false) :
    trimWs (seg ++ [' ']) = seg := by
  unfold trimWs
  have hh : ∀ c, (seg ++ [' ']).head? = some c → jsWhitespace c = false := by
    intro c hc
    cases seg with
    | nil => exact absurd rfl hne
    | cons d t =>
      rw [List.cons_append] at hc
      obtain rfl : d = c := by simpa using hc
      exact hhead d rfl
  rw [dropWhile_eq_self_of_head hh, List.reverse_append]
  simp only [List.reverse_cons, List.reverse_nil, List.nil_append,
    List.singleton_append]
  rw [List.dropWhile_cons, if_pos (by decide),
    dropWhile_eq_self_of_head
      (fun c hc => hlast c (by rwa [← List.head?_reverse])),
    List.reverse_reverse]

theorem collapseWs_cons_head {c : Char} {r : List Char}
    (h : jsWhitespace c = false) :
    collapseWs (c :: r) = c :: collapseWsAux false r := by
  simp [collapseWs, collapseWsAux, h]

theorem normalize_head_ws (s : List Char) :
    ∀ x, (normalize s).head? = some x → jsWhitespace x = false := by
  intro x hx
  unfold normalize at hx
  rw [List.head?_map] at hx
  obtain ⟨d, hd, rfl⟩ := Option.map_eq_some'.1 hx
  rw [jsToLower_ws]
  exact trimWs_head_ws _ d hd

theorem normalize_getLast_ws (s : List Char) :
    ∀ x, (normalize s).getLast? = some x → jsWhitespace x = false := by
  intro x hx
  unfold normalize at hx
  rw [List.getLast?_map] at hx
  obtain ⟨d, hd, rfl⟩ := Option.map_eq_some'.1 hx
  rw [jsToLower_ws]
  exact trimWs_getLast_ws _ d hd

/-- Tier-2 success: when the live text does not begin with whitespace, the
normalized original is nonempty, and it occurs in the normalized live text,
the position-mapping walk finds a raw range whose content normalizes back to
the normalized original; the range ends at `extendEnd` of the position after
the last matched content character. -/
theorem tier2_success (liveText original : List Char) (normPos : Nat)
    (H0 : wsAt liveText 0 = false)
    (HL : 1 ≤ (normalize original).length)
    (Hocc : jsIndexOf (normalize liveText) (normalize original)
      = some normPos) :
    ∃ s e0,
      tier2 liveText original = some (s, extendEnd liveText e0 - s) ∧
      s < e0 ∧ e0 ≤ extendEnd liveText e0 ∧
      extendEnd liveText e0 ≤ liveText.length ∧
      wsAt liveText s = false ∧ wsAt liveText (e0 - 1) = false ∧
      normalize ((liveText.drop s).take (extendEnd liveText e0 - s)) =
        normalize original := by
  obtain ⟨hple, hmatch, -⟩ := jsIndexOf_spec_some Hocc
  obtain ⟨rest, hrest⟩ := (matchesAt_iff _ _).1 hmatch
  -- the normalized match lies inside the trimmed collapsed live text
  have hlenR : (normalize liveText).length =
      (trimWs (collapseWs liveText)).length := List.length_map _ _
  have hdropLen := congrArg List.length hrest
  rw [List.length_drop, List.length_append] at hdropLen
  have hB : normPos + (normalize original).length ≤
      (trimWs (collapseWs liveText)).length := by omega
  -- the characters of the normalized original, read off the normalized live
  have hNo : ∀ i, i < (normalize original).length →
      (normalize original)[i]? = (normalize liveText)[normPos + i]? := by
    intro i hi
    rw [← List.getElem?_drop, hrest, List.getElem?_append, if_pos hi]
  -- the live text is nonempty and starts with a non-whitespace character
  obtain ⟨c0, L', rfl⟩ : ∃ c0 L', liveText = c0 :: L' := by
    cases liveText with
    | nil =>
      exfalso
      have hz : (normalize ([] : List Char)).length = 0 := rfl
      omega
    | cons c0 L' => exact ⟨c0, L', rfl⟩
  have hc0 : jsWhitespace c0 = false := by
    have h00 : (c0 :: L')[0]? = some c0 := List.getElem?_cons_zero
    rw [wsAt_eq h00] at H0
    exact H0
  -- the trimmed collapsed text is a prefix of the collapsed text
  have hChead : ∀ c, (collapseWs (c0 :: L')).head? = some c →
      jsWhitespace c = false := by
    intro c hc
    rw [collapseWs_cons_head hc0] at hc
    obtain rfl : c0 = c := by simpa using hc
    exact hc0
  obtain ⟨W, hW⟩ := trimWs_prefix_decomp (collapseWs (c0 :: L')) hChead
  have hWlen := congrArg List.length hW
  rw [List.length_append] at hWlen
  have hTC : ∀ i, i < (trimWs (collapseWs (c0 :: L'))).length →
      (trimWs (collapseWs (c0 :: L')))[i]? = (collapseWs (c0 :: L'))[i]? := by
    intro i hi
    conv_rhs => rw [hW]
    rw [List.getElem?_append, if_pos hi]
  have HB : normPos + (normalize original).length ≤
      (collapseWs (c0 :: L')).length := by omega
  -- link between characters of the collapsed live text and the
  -- normalized original
  have hCN : ∀ i, i < (normalize original).length →
      (normalize original)[i]? =
        Option.map jsToLower ((collapseWs (c0 :: L'))[normPos + i]?) := by
    intro i hi
    rw [hNo i hi]
    show (normalize (c0 :: L'))[normPos + i]? = _
    unfold normalize
    rw [List.getElem?_map, hTC (normPos + i) (by omega)]
  have Hfirst : ∀ c, (collapseWs (c0 :: L'))[normPos]? = some c →
      jsWhitespace c = false := by
    intro c hc
    have h1 := hCN 0 (by omega)
    rw [Nat.add_zero, hc] at h1
    have h2 : (normalize original).head? = some (jsToLower c) := by
      rw [List.head?_eq_getElem?, h1]
      rfl
    have := normalize_head_ws original (jsToLower c) h2
    rwa [jsToLower_ws] at this
  have Hlast : ∀ c,
      (collapseWs (c0 :: L'))[normPos + (normalize original).length - 1]?
        = some c → jsWhitespace c = false := by
    intro c hc
    have h1 := hCN ((normalize original).length - 1) (by omega)
    have hidx : normPos + ((normalize original).length - 1) =
        normPos + (normalize original).length - 1 := by omega
    rw [hidx, hc] at h1
    have h2 : (normalize original).getLast? = some (jsToLower c) := by
      rw [List.getLast?_eq_getElem?, h1]
      rfl
    have := normalize_getLast_ws original (jsToLower c) h2
    rwa [jsToLower_ws] at this
  -- run the mapping loop
  obtain ⟨s, e0, heq, hse0, he0le, hslen, hsws, he0ws, hdisj⟩ :=
    mapLoopGo_search (c0 :: L') normPos (normalize original).length HB HL
      Hfirst Hlast ((c0 :: L').length - 0) 0 0 (by omega) (by omega)
      (cntC_zero _).symm (by omega)
  have hE1 : e0 ≤ extendEnd (c0 :: L') e0 := by
    rcases Nat.lt_or_ge e0 (c0 :: L').length with h | h
    · exact extendEnd_ge _ _
    · exact extendEnd_ge _ _
  have hEle : extendEnd (c0 :: L') e0 ≤ (c0 :: L').length := by
    exact extendEnd_le _ _ (by omega)
  refine ⟨s, e0, ?_, hse0, hE1, hEle, hsws, he0ws, ?_⟩
  · simp only [tier2, Hocc]
    rw [mapLoop, heq]
  · -- the matched slice normalizes to the normalized original
    have hsegLen : (((collapseWs (c0 :: L')).drop normPos).take
        (normalize original).length).length = (normalize original).length := by
      rw [List.length_take, List.length_drop]
      omega
    have hsegGet : ∀ i, i < (normalize original).length →
        (((collapseWs (c0 :: L')).drop normPos).take
          (normalize original).length)[i]? =
          (collapseWs (c0 :: L'))[normPos + i]? := by
      intro i hi
      rw [List.getElem?_take, if_pos hi, List.getElem?_drop]
    have hsegHead : ∀ c, (((collapseWs (c0 :: L')).drop normPos).take
        (normalize original).length).head? = some c →
        jsWhitespace c = false := by
      intro c hc
      rw [List.head?_eq_getElem?, hsegGet 0 (by omega), Nat.add_zero] at hc
      exact Hfirst c hc
    have hsegLast : ∀ c, (((collapseWs (c0 :: L')).drop normPos).take
        (normalize original).length).getLast? = some c →
        jsWhitespace c = false := by
      intro c hc
      rw [List.getLast?_eq_getElem?, hsegLen,
        hsegGet ((normalize original).length - 1) (by omega)] at hc
      have hidx : normPos + ((normalize original).length - 1) =
          normPos + (normalize original).length - 1 := by omega
      rw [hidx] at hc
      exact Hlast c hc
    have hsegNe : ((collapseWs (c0 :: L')).drop normPos).take
        (normalize original).length ≠ [] := by
      intro hnil
      rw [hnil] at hsegLen
      simp at hsegLen
      omega
    have hmapseg : ((((collapseWs (c0 :: L')).drop normPos).take
        (normalize original).length).map jsToLower) = normalize original := by
      apply List.ext_getElem?
      intro n
      rcases Nat.lt_or_ge n (normalize original).length with hn | hn
      · rw [List.getElem?_map, hsegGet n hn, ← hCN n hn]
      · rw [List.getElem?_map,
          List.getElem?_eq_none (by rw [hsegLen]; omega),
          List.getElem?_eq_none hn]
        rfl
    show (trimWs (collapseWsAux false (((c0 :: L').drop s).take
        (extendEnd (c0 :: L') e0 - s)))).map jsToLower = normalize original
    rcases hdisj with hcol | hcol
    · rw [hcol, trimWs_eq_self hsegHead hsegLast]
      exact hmapseg
    · rw [hcol, trimWs_append_space hsegNe hsegHead hsegLast]
      exact hmapseg

/-! ### The tier-3 countdown -/

theorem tier3Go_of_lt3 (liveText : List Char) (words : List (List Char)) :
    ∀ {len : Nat}, len < 3 → tier3Go liveText words len = none
  | 0, _ => rfl
  | len + 1, h => by
    rw [tier3Go, if_neg (by omega)]

theorem tier3Go_skip (liveText : List Char) (words : List (List Char)) :
    ∀ (L len : Nat), len ≤ L →
    (∀ l, len < l → l ≤ L →
      jsIndexOf (liveText.map jsToLower) ((fragmentOf words l).map jsToLower)
        = none) →
    tier3Go liveText words L = tier3Go liveText words len := by
  intro L
  induction L with
  | zero =>
    intro len hlen _
    obtain rfl : len = 0 := by omega
    rfl
  | succ L ih =>
    intro len hlen hfail
    rcases Nat.eq_or_lt_of_le hlen with rfl | hlt
    · rfl
    · by_cases h3 : 3 ≤ L + 1
      · have hfL := hfail (L + 1) hlt (le_refl _)
        rw [tier3Go]
        simp only [if_pos h3, hfL]
        exact ih len (by omega) (fun l ha hb => hfail l ha (by omega))
      · rw [tier3Go_of_lt3 _ _ (by omega), tier3Go_of_lt3 _ _ (by omega)]

theorem newline_matchesAt_iff (live : List Char) (q : Nat) :
    matchesAt ['\n'] (live.drop q) = true ↔ live[q]? = some '\n' := by
  have hq : live[q]? = (live.drop q)[0]? := by
    rw [List.getElem?_drop, Nat.add_zero]
  rw [hq]
  generalize live.drop q = l
  cases l with
  | nil => simp [matchesAt]
  | cons c cs =>
    simp only [matchesAt, Bool.and_true, beq_iff_eq,
      List.getElem?_cons_zero, Option.some.injEq]
    exact eq_comm

/-! ### Word counting for the split -/

theorem splitWsGo_length : ∀ (s : List Char) (acc : List Char) (b : Bool),
    (splitWsGo acc b s).length = 1 + wsRunsAux b s
  | [], acc, b => by simp [splitWsGo, wsRunsAux]
  | c :: r, acc, b => by
    by_cases hc : jsWhitespace c = true
    · cases b with
      | true => simp [splitWsGo, wsRunsAux, hc, splitWsGo_length r]
      | false =>
        simp [splitWsGo, wsRunsAux, hc, splitWsGo_length r]
        omega
    · simp [splitWsGo, wsRunsAux, hc, splitWsGo_length r]

theorem wordRunsAux_consT (c : Char) (r : List Char) :
    wordRunsAux true (c :: r) = if jsWhitespace c = true
      then wordRunsAux false r else wordRunsAux true r := by
  simp [wordRunsAux]

theorem wordRunsAux_consF (c : Char) (r : List Char) :
    wordRunsAux false (c :: r) = if jsWhitespace c = true
      then wordRunsAux false r else 1 + wordRunsAux true r := by
  simp [wordRunsAux]

theorem wsRunsAux_consT (c : Char) (r : List Char) :
    wsRunsAux true (c :: r) = if jsWhitespace c = true
      then wsRunsAux true r else wsRunsAux false r := by
  simp [wsRunsAux]

theorem wsRunsAux_consF (c : Char) (r : List Char) :
    wsRunsAux false (c :: r) = if jsWhitespace c = true
      then 1 + wsRunsAux true r else wsRunsAux false r := by
  simp [wsRunsAux]

theorem wordRuns_wsRuns : ∀ (s : List Char),
    (∀ c, s.getLast? = some c → jsWhitespace c = false) →
    wordRunsAux true s = wsRunsAux false s ∧
    (s ≠ [] → wordRunsAux false s = 1 + wsRunsAux true s)
  | [], _ => ⟨rfl, fun hne => absurd rfl hne⟩
  | c :: r, h => by
    cases r with
    | nil =>
      have hc : jsWhitespace c = false := h c (by simp)
      exact ⟨by simp [wordRunsAux, wsRunsAux, hc],
        fun _ => by simp [wordRunsAux, wsRunsAux, hc]⟩
    | cons d t =>
      have hr : ∀ x, (d :: t).getLast? = some x → jsWhitespace x = false := by
        intro x hx
        exact h x (by rw [List.getLast?_cons_cons]; exact hx)
      obtain ⟨ih1, ih2⟩ := wordRuns_wsRuns (d :: t) hr
      have ih2' := ih2 (by simp)
      by_cases hc : jsWhitespace c = true
      · constructor
        · rw [wordRunsAux_consT, wsRunsAux_consF, if_pos hc, if_pos hc, ih2']
        · intro _
          rw [wordRunsAux_consF, wsRunsAux_consT, if_pos hc, if_pos hc, ih2']
      · constructor
        · rw [wordRunsAux_consT, wsRunsAux_consF, if_neg hc, if_neg hc, ih1]
        · intro _
          rw [wordRunsAux_consF, wsRunsAux_consT, if_neg hc, if_neg hc, ih1]

theorem splitWs_length_of_clean (s : List Char) (hne : s ≠ [])
    (hhead : ∀ c, s.head? = some c → jsWhitespace c = false)
    (hlast : ∀ c, s.getLast? = some c → jsWhitespace c = false) :
    (splitWs s).length = wordRuns s := by
  obtain ⟨c, r, rfl⟩ : ∃ c r, s = c :: r := by
    cases s with
    | nil => exact absurd rfl hne
    | cons c r => exact ⟨c, r, rfl⟩
  have hc : jsWhitespace c = false := hhead c rfl
  obtain ⟨ih1, -⟩ := wordRuns_wsRuns (c :: r) hlast
  have ih1' : wordRunsAux true r = wsRunsAux false r := by
    rw [wordRunsAux_consT, wsRunsAux_consF, if_neg (by simp [hc]),
      if_neg (by simp [hc])] at ih1
    exact ih1
  rw [splitWs, splitWsGo_length, wsRunsAux_consF, if_neg (by simp [hc])]
  unfold wordRuns
  rw [wordRunsAux_consF, if_neg (by simp [hc]), ih1']

/-! ### Claim theorems -/

/-- C1: whenever `original` occurs verbatim in `liveText`, the search
succeeds via tier 1: `jsIndexOf` returns the position of the first occurrence
(no earlier decomposition exists), the match length is `original.length`, and
the produced `newText` is `liveText` with exactly that first occurrence
replaced by `suggested`. -/
theorem c1_exact_tier (liveText original suggested : List Char)
    (hocc : ∃ pre post, liveText = pre ++ original ++ post) :
    ∃ pre post,
      liveText = pre ++ original ++ post ∧
      (∀ pre' post', liveText = pre' ++ original ++ post' →
        pre.length ≤ pre'.length) ∧
      jsIndexOf liveText original = some pre.length ∧
      locateAndReplace liveText original suggested =
        some (pre ++ suggested ++ post, pre.length,
              pre.length + suggested.length) := by
  obtain ⟨j, hj⟩ := jsIndexOf_of_occurs hocc
  obtain ⟨hle, hmatch, hmin⟩ := jsIndexOf_spec_some hj
  refine ⟨liveText.take j, liveText.drop (j + original.length),
    drop_decomp hle hmatch, ?_, ?_, ?_⟩
  · intro pre' post' hdec
    by_contra hcon
    push_neg at hcon
    rw [List.length_take] at hcon
    have hfalse := hmin pre'.length (by omega)
    rw [hdec, List.append_assoc, List.drop_left] at hfalse
    rw [(matchesAt_iff original (original ++ post')).2 ⟨post', rfl⟩] at hfalse
    exact absurd hfalse (by simp)
  · rw [List.length_take, Nat.min_eq_left hle]
    exact hj
  · have hlen : (liveText.take j).length = j := by
      rw [List.length_take, Nat.min_eq_left hle]
    simp only [locateAndReplace, locate, hj, hlen]

/-- Witness for C1: `"abc"` occurs in `"xx abc yy"`; the first occurrence is
found and replaced. -/
theorem c1_exact_tier_witness :
    ∃ pre post,
      "xx abc yy".toList = pre ++ "abc".toList ++ post ∧
      (∀ pre' post', "xx abc yy".toList = pre' ++ "abc".toList ++ post' →
        pre.length ≤ pre'.length) ∧
      jsIndexOf "xx abc yy".toList "abc".toList = some pre.length ∧
      locateAndReplace "xx abc yy".toList "abc".toList "Q".toList =
        some (pre ++ "Q".toList ++ post, pre.length,
              pre.length + "Q".toList.length) :=
  c1_exact_tier "xx abc yy".toList "abc".toList "Q".toList
    ⟨"xx ".toList, " yy".toList, by decide⟩

/-- C6: every successful `locate` with raw range `[pos, pos + mlen)` yields a
`newText` equal to `liveText` with that range replaced by `suggested`, and a
reported `matchRange = {pos, pos + suggested.length}`; the matched range lies
inside `liveText`, and the reported range lies inside the *new* text, where it
delimits exactly the inserted `suggested`. -/
theorem c6_replacement (liveText original suggested : List Char)
    (pos mlen : Nat) (h : locate liveText original = some (pos, mlen)) :
    locateAndReplace liveText original suggested =
      some (replaceRange liveText pos (pos + mlen) suggested,
            pos, pos + suggested.length) ∧
    pos + mlen ≤ liveText.length ∧
    pos + suggested.length ≤
      (replaceRange liveText pos (pos + mlen) suggested).length ∧
    ((replaceRange liveText pos (pos + mlen) suggested).drop pos).take
        suggested.length = suggested := by
  have hb := locate_bounds h
  have hlen : (liveText.take pos).length = pos := by
    rw [List.length_take, Nat.min_eq_left (by omega)]
  refine ⟨by simp only [locateAndReplace, h, replaceRange], hb, ?_, ?_⟩
  · simp only [replaceRange, List.length_append, hlen]
    omega
  · rw [replaceRange, List.append_assoc, List.drop_left' hlen, List.take_left]

/-- Witness for C6 at a concrete successful locate. -/
theorem c6_replacement_witness :
    locateAndReplace "abc".toList "b".toList "XY".toList =
      some (replaceRange "abc".toList 1 (1 + 1) "XY".toList,
            1, 1 + "XY".toList.length) ∧
    1 + 1 ≤ "abc".toList.length ∧
    1 + "XY".toList.length ≤
      (replaceRange "abc".toList 1 (1 + 1) "XY".toList).length ∧
    ((replaceRange "abc".toList 1 (1 + 1) "XY".toList).drop 1).take
        "XY".toList.length = "XY".toList :=
  c6_replacement "abc".toList "b".toList "XY".toList 1 1 (by decide)

/-- C5: when tiers 1 and 2 fail, tier 3 splits `original` with JS
`split(/\s+/)` and, counting fragment lengths down from
`min(words.length, 8)`, picks the largest length `len ≥ 3` whose first-`len`
words joined by single spaces occur case-insensitively in `liveText`
(hypotheses `h5`/`h6`); the located range starts at the fragment hit and runs
to the next newline of `liveText` (or to end-of-text when there is none). -/
theorem c5_fragment_tier (liveText original : List Char) (len fragPos : Nat)
    (h1 : jsIndexOf liveText original = none)
    (h2 : tier2 liveText original = none)
    (h3 : 3 ≤ len) (h4 : len ≤ min (splitWs original).length 8)
    (h5 : ∀ l, len < l → l ≤ min (splitWs original).length 8 →
      jsIndexOf (liveText.map jsToLower)
        ((fragmentOf (splitWs original) l).map jsToLower) = none)
    (h6 : jsIndexOf (liveText.map jsToLower)
      ((fragmentOf (splitWs original) len).map jsToLower) = some fragPos) :
    ∃ endPos,
      locate liveText original = some (fragPos, endPos - fragPos) ∧
      tier3 liveText original = some (fragPos, endPos - fragPos) ∧
      fragPos ≤ endPos ∧ endPos ≤ liveText.length ∧
      (∀ j, fragPos ≤ j → j < endPos → liveText[j]? ≠ some '\n') ∧
      (endPos = liveText.length ∨ liveText[endPos]? = some '\n') := by
  have hb6 := jsIndexOf_bound h6
  rw [List.length_map, List.length_map] at hb6
  have hskip := tier3Go_skip liveText (splitWs original)
    (min (splitWs original).length 8) len h4 h5
  obtain ⟨k, rfl⟩ : ∃ k, len = k + 1 := ⟨len - 1, by omega⟩
  have hloc : ∀ r, tier3 liveText original = r →
      locate liveText original = r := by
    intro r hr
    simp only [locate, h1, h2, hr]
  cases hnl : jsIndexOfFrom liveText ['\n'] fragPos with
  | some e =>
    obtain ⟨hs1, hs2, hs3, hs4⟩ :=
      jsIndexOfAux_spec_some ['\n'] (liveText.drop fragPos) fragPos e hnl
    rw [List.length_drop] at hs2
    have ht3 : tier3 liveText original = some (fragPos, e - fragPos) := by
      rw [tier3, hskip, tier3Go]
      simp only [if_pos h3, h6, hnl]
    refine ⟨e, hloc _ ht3, ht3, hs1, by omega, ?_, ?_⟩
    · intro j hj1 hj2 hcon
      have hm := hs4 j hj1 hj2
      rw [List.drop_drop] at hm
      have hje : fragPos + (j - fragPos) = j := by omega
      rw [hje] at hm
      rw [(newline_matchesAt_iff liveText j).2 hcon] at hm
      exact absurd hm (by simp)
    · right
      rw [List.drop_drop] at hs3
      have hee : fragPos + (e - fragPos) = e := by omega
      rw [hee] at hs3
      exact (newline_matchesAt_iff liveText e).1 hs3
  | none =>
    have hs := jsIndexOfAux_spec_none ['\n'] (liveText.drop fragPos) fragPos hnl
    have ht3 : tier3 liveText original =
        some (fragPos, liveText.length - fragPos) := by
      rw [tier3, hskip, tier3Go]
      simp only [if_pos h3, h6, hnl]
    refine ⟨liveText.length, hloc _ ht3, ht3, by omega, le_refl _, ?_,
      Or.inl rfl⟩
    intro j hj1 hj2 hcon
    have hm := hs j hj1
    rw [List.drop_drop] at hm
    have hje : fragPos + (j - fragPos) = j := by omega
    rw [hje] at hm
    rw [(newline_matchesAt_iff liveText j).2 hcon] at hm
    exact absurd hm (by simp)

/-- Witness for C5: a 10-word original whose first five words appear in the
live text followed immediately by a newline; tier 3 matches at fragment
length 5 and the range runs to the end of that line (offset 30). -/
theorem c5_fragment_tier_witness :
    ∃ endPos,
      locate "Alpha bravo charlie delta echo\nrest of resume".toList
          "alpha bravo charlie delta echo foxtrot golf hotel india juliet".toList
        = some (0, endPos - 0) ∧
      tier3 "Alpha bravo charlie delta echo\nrest of resume".toList
          "alpha bravo charlie delta echo foxtrot golf hotel india juliet".toList
        = some (0, endPos - 0) ∧
      0 ≤ endPos ∧
      endPos ≤ "Alpha bravo charlie delta echo\nrest of resume".toList.length ∧
      (∀ j, 0 ≤ j → j < endPos →
        "Alpha bravo charlie delta echo\nrest of resume".toList[j]?
          ≠ some '\n') ∧
      (endPos = "Alpha bravo charlie delta echo\nrest of resume".toList.length ∨
       "Alpha bravo charlie delta echo\nrest of resume".toList[endPos]?
         = some '\n') :=
  c5_fragment_tier
    "Alpha bravo charlie delta echo\nrest of resume".toList
    "alpha bravo charlie delta echo foxtrot golf hotel india juliet".toList
    5 0 (by decide) (by decide) (by decide) (by decide)
    (by
      intro l hl1 hl2
      have hl8 : l ≤ 8 := le_trans hl2 (by decide)
      interval_cases l <;> decide)
    (by decide)

/-- C10 (amended): when `original`'s JS split yields fewer than 3 tokens,
the tier-3 fragment loop runs zero iterations (its countdown starts below
the minimum fragment length 3), so on such an original, when tiers 1 and 2
fail, the apply operation yields not-found and leaves the live text and the
applied set unchanged.  A one- or two-word original need not satisfy the
hypothesis: JS split emits an empty token for each edge whitespace run, so
`" A B "` already yields 4 tokens and the loop does run there (see the
counterexample), while originals such as `" a"` yield only 2 tokens and
remain covered. -/
theorem c10_short_original (liveText original suggested why : List Char)
    (index : Nat) (s : Session)
    (hs : s.resumeText = liveText)
    (hsplit : (splitWs original).length < 3)
    (h1 : jsIndexOf liveText original = none)
    (h2 : tier2 liveText original = none) :
    tier3 liveText original = none ∧
    locate liveText original = none ∧
    locateAndReplace liveText original suggested = none ∧
    (handleApplyRewrite (Rewrite.mk original suggested why) index s).resumeText
      = s.resumeText ∧
    (handleApplyRewrite (Rewrite.mk original suggested why) index
      s).appliedRewrites = s.appliedRewrites := by
  have ht3 : tier3 liveText original = none := by
    rw [tier3]
    exact tier3Go_of_lt3 _ _ (by omega)
  have hloc : locate liveText original = none := locate_eq_none h1 h2 ht3
  have hlr : locateAndReplace liveText original suggested = none := by
    simp [locateAndReplace, hloc]
  have hstep := @handleApplyRewrite_of_none
    (Rewrite.mk original suggested why) index s
    (by simpa [hs] using hlr)
  exact ⟨ht3, hloc, hlr, by rw [hstep], by rw [hstep]⟩

/-- C10 counterexample: `" A B "` contains two whitespace-delimited words,
yet its JS split has 4 elements (the edge whitespace contributes empty
tokens), so the tier-3 loop does run — and even finds a match in
`"x a b y"` — contradicting "tier 3 performs no search at all (the loop
executes zero iterations)" for every one- or two-word original. -/
theorem c10_short_original_counterexample :
    wordRuns " A B ".toList = 2 ∧
    (splitWs " A B ".toList).length = 4 ∧
    tier3 "x a b y".toList " A B ".toList = some (1, 6) := by
  refine ⟨by decide, by decide, by decide⟩

/-- Witness for C10: the one-word leading-whitespace original `" a"` splits
into the 2 tokens `["", "a"]`, satisfying the hypothesis, and tiers 1 and 2
fail against `"hello"`. -/
theorem c10_short_original_witness :
    (splitWs " a".toList).length < 3 ∧
    (tier3 "hello".toList " a".toList = none ∧
    locate "hello".toList " a".toList = none ∧
    locateAndReplace "hello".toList " a".toList "X".toList = none ∧
    (handleApplyRewrite
        (Rewrite.mk " a".toList "X".toList "w".toList) 0
        (Session.mk "hello".toList ∅ false none)).resumeText
      = (Session.mk "hello".toList (∅ : Finset Nat) false none).resumeText ∧
    (handleApplyRewrite
        (Rewrite.mk " a".toList "X".toList "w".toList) 0
        (Session.mk "hello".toList ∅ false none)).appliedRewrites
      = (Session.mk "hello".toList (∅ : Finset Nat) false
          none).appliedRewrites) :=
  ⟨by decide,
    c10_short_original "hello".toList " a".toList "X".toList "w".toList 0
      (Session.mk "hello".toList ∅ false none) rfl (by decide) (by decide)
      (by decide)⟩

/-- C2 (amended): when `original` does not occur verbatim but its
normalization occurs in the normalized live text, and additionally the live
text does not begin with whitespace and the normalized original is nonempty,
tier 2 succeeds with a raw range of the un-normalized live text whose
content normalizes exactly to the normalized original.  (Without the two
added conditions the claim fails; see the counterexample.) -/
theorem c2_normalized_tier (liveText original : List Char) (normPos : Nat)
    (H0 : wsAt liveText 0 = false)
    (H1 : jsIndexOf liveText original = none)
    (HL : 1 ≤ (normalize original).length)
    (Hocc : jsIndexOf (normalize liveText) (normalize original)
      = some normPos) :
    ∃ s m,
      tier2 liveText original = some (s, m) ∧
      locate liveText original = some (s, m) ∧
      0 < m ∧ s + m ≤ liveText.length ∧
      normalize ((liveText.drop s).take m) = normalize original := by
  obtain ⟨s, e0, ht2, hse0, he0E, hEle, hsws, he0ws, hnorm⟩ :=
    tier2_success liveText original normPos H0 HL Hocc
  refine ⟨s, extendEnd liveText e0 - s, ht2, ?_, by omega, by omega, hnorm⟩
  simp only [locate, H1, ht2]

/-- C2 counterexample: with `liveText = " abc"` (leading space) and
`original = "ABC"`, the normalized original `"abc"` occurs at 0 in the
normalized live text, and tier 2 returns the range `[0, 3)` — but that
raw slice is `" ab"`, whose normalization `"ab"` is not the normalized
original (the walk counts the leading whitespace run although
normalization trims it).  Moreover with `original = " "` (only whitespace)
the empty normalized original occurs at 0 in the normalized `"xy"`, yet
tier 2 does not succeed at all. -/
theorem c2_normalized_tier_counterexample :
    jsIndexOf " abc".toList "ABC".toList = none ∧
    jsIndexOf (normalize " abc".toList) (normalize "ABC".toList) = some 0 ∧
    tier2 " abc".toList "ABC".toList = some (0, 3) ∧
    normalize ((" abc".toList.drop 0).take 3) ≠ normalize "ABC".toList ∧
    jsIndexOf "xy".toList " ".toList = none ∧
    jsIndexOf (normalize "xy".toList) (normalize " ".toList) = some 0 ∧
    tier2 "xy".toList " ".toList = none := by
  refine ⟨by decide, by decide, by decide, by decide, by decide, by decide,
    by decide⟩

/-- Witness for C2 on the spec's own normalization-tier example. -/
theorem c2_normalized_tier_witness :
    ∃ s m,
      tier2 "Built  a\npipeline".toList "built a pipeline".toList
        = some (s, m) ∧
      locate "Built  a\npipeline".toList "built a pipeline".toList
        = some (s, m) ∧
      0 < m ∧ m + s ≤ "Built  a\npipeline".toList.length + 0 ∧
      normalize (("Built  a\npipeline".toList.drop s).take m)
        = normalize "built a pipeline".toList := by
  obtain ⟨s, m, h1, h2, h3, h4, h5⟩ :=
    c2_normalized_tier "Built  a\npipeline".toList
      "built a pipeline".toList 0 (by decide) (by decide) (by decide)
      (by decide)
  exact ⟨s, m, h1, h2, h3, by omega, h5⟩

/-- C7 (amended): when tier 2 succeeds (live text not starting with
whitespace, nonempty normalized original), the mapped end `s + m` is
`extendEnd` of the position `e0` one past the last matched content
character: every position from `e0` up to the final end holds whitespace
whose successor is also whitespace, and at the final end either the
character there or the one after it is non-whitespace.  The fold thus
absorbs all but the last character of a trailing whitespace run,
regardless of whether that run is followed by non-whitespace or reaches
end-of-text. -/
theorem c7_trailing_ws (liveText original : List Char) (normPos : Nat)
    (H0 : wsAt liveText 0 = false)
    (HL : 1 ≤ (normalize original).length)
    (Hocc : jsIndexOf (normalize liveText) (normalize original)
      = some normPos) :
    ∃ s m e0,
      tier2 liveText original = some (s, m) ∧
      s < e0 ∧ e0 ≤ s + m ∧ wsAt liveText (e0 - 1) = false ∧
      s + m = extendEnd liveText e0 ∧
      (∀ j, e0 ≤ j → j < s + m → wsAt liveText j = true) ∧
      (wsAt liveText (s + m) = false ∨ wsAt liveText (s + m + 1) = false) := by
  obtain ⟨s, e0, ht2, hse0, he0E, hEle, hsws, he0ws, hnorm⟩ :=
    tier2_success liveText original normPos H0 HL Hocc
  have hsm : s + (extendEnd liveText e0 - s) = extendEnd liveText e0 := by
    omega
  refine ⟨s, extendEnd liveText e0 - s, e0, ht2, hse0, by omega, he0ws,
    hsm, ?_, ?_⟩
  · intro j hj1 hj2
    rw [hsm] at hj2
    exact extendEnd_all_ws liveText e0 j hj1 hj2
  · rw [hsm]
    exact extendEnd_stop liveText e0

/-- C7 counterexample: with `liveText = "ab  "` and `original = "AB"` the
trailing whitespace run reaches end-of-text, and the claim says such a run
is not folded into the match (so the match length would be 2); the code
folds one of the two trailing spaces, returning match length 3. -/
theorem c7_trailing_ws_counterexample :
    jsIndexOf "ab  ".toList "AB".toList = none ∧
    tier2 "ab  ".toList "AB".toList = some (0, 3) ∧
    ¬ tier2 "ab  ".toList "AB".toList = some (0, 2) := by
  refine ⟨by decide, by decide, by decide⟩

/-- Witness for C7: in `"Built a  x"` with original `"BUILT A"`, one of the
two spaces before `x` is folded into the match (range `[0, 8)`). -/
theorem c7_trailing_ws_witness :
    ∃ s m e0,
      tier2 "Built a  x".toList "BUILT A".toList = some (s, m) ∧
      s < e0 ∧ e0 ≤ s + m ∧ wsAt "Built a  x".toList (e0 - 1) = false ∧
      s + m = extendEnd "Built a  x".toList e0 ∧
      (∀ j, e0 ≤ j → j < s + m → wsAt "Built a  x".toList j = true) ∧
      (wsAt "Built a  x".toList (s + m) = false ∨
        wsAt "Built a  x".toList (s + m + 1) = false) :=
  c7_trailing_ws "Built a  x".toList "BUILT A".toList 0 (by decide)
    (by decide) (by decide)

/-- C3 (amended): applying the suggestion
`{original: "Managed a team of engineers.",
suggested: "Led a team of 8 engineers, cutting deployment time by 30%."}`
to `"Managed a team of engineers.\nUsed Python for automation."` succeeds with
`newText = "Led a team of 8 engineers, cutting deployment time by 30%.\nUsed
Python for automation."` and `matchRange = {start: 0, end: 58}`, the end being
the length of the suggested text (58 characters, not 60 as claimed). -/
theorem c3_end_to_end :
    locateAndReplace
      "Managed a team of engineers.\nUsed Python for automation.".toList
      "Managed a team of engineers.".toList
      "Led a team of 8 engineers, cutting deployment time by 30%.".toList
    = some
      ("Led a team of 8 engineers, cutting deployment time by 30%.\nUsed Python for automation.".toList,
       0, 58) ∧
    "Led a team of 8 engineers, cutting deployment time by 30%.".toList.length
      = 58 := by
  constructor
  · rfl
  · rfl

/-- C3 counterexample: the claim states `matchRange = {start: 0, end: 60}`,
but the end reported by the code is `0 + suggested.length = 58`. -/
theorem c3_end_to_end_counterexample :
    (locateAndReplace
      "Managed a team of engineers.\nUsed Python for automation.".toList
      "Managed a team of engineers.".toList
      "Led a team of 8 engineers, cutting deployment time by 30%.".toList).map
        (fun r => r.2.2) = some 58 ∧ (58 : Nat) ≠ 60 := by
  constructor
  · rfl
  · decide

/-- C4: whenever all three search tiers fail, the apply operation returns the
distinguishable not-found outcome (`locateAndReplace` returns `none`, it
cannot throw), and the handler leaves the live resume text and the applied
set unchanged, only showing the error message. -/
theorem c4_not_found (liveText original suggested why : List Char)
    (index : Nat) (s : Session)
    (hs : s.resumeText = liveText)
    (h1 : jsIndexOf liveText original = none)
    (h2 : tier2 liveText original = none)
    (h3 : tier3 liveText original = none) :
    locateAndReplace liveText original suggested = none ∧
    (handleApplyRewrite (Rewrite.mk original suggested why) index s).resumeText
      = s.resumeText ∧
    (handleApplyRewrite (Rewrite.mk original suggested why) index
        s).appliedRewrites = s.appliedRewrites ∧
    (handleApplyRewrite (Rewrite.mk original suggested why) index s).errorShown
      = true := by
  have hloc : locate liveText original = none := locate_eq_none h1 h2 h3
  have hlr : locateAndReplace liveText original suggested = none := by
    simp [locateAndReplace, hloc]
  have hstep := @handleApplyRewrite_of_none
    (Rewrite.mk original suggested why) index s
    (by simpa [hs] using hlr)
  refine ⟨hlr, ?_, ?_, ?_⟩ <;> simp [hstep]

/-- Witness for C4 at a concrete input on which every tier fails. -/
theorem c4_not_found_witness :
    locateAndReplace "hello".toList "zq yx wv ut".toList "X".toList = none ∧
    (handleApplyRewrite
        (Rewrite.mk "zq yx wv ut".toList "X".toList "w".toList) 0
        (Session.mk "hello".toList ∅ false none)).resumeText
      = (Session.mk "hello".toList (∅ : Finset Nat) false none).resumeText := by
  have h := c4_not_found "hello".toList "zq yx wv ut".toList "X".toList
    "w".toList 0 (Session.mk "hello".toList ∅ false none)
    rfl (by decide) (by decide) (by decide)
  exact ⟨h.1, h.2.1⟩

/-- C8: the complete behaviour of `generateWithRetry` at the cap used by both
call sites (`maxRetries = 3`), as a function of the per-attempt outcomes:
only rate-limit failures are retried, with backoff delays `attempt * 5000` ms
(5000 then 10000); a non-rate-limit failure is rethrown immediately at the
attempt where it occurs, and a rate-limit failure on the final attempt is
rethrown rather than retried. -/
theorem c8_retry_characterization (o : Nat → AttemptOutcome) :
    generateWithRetry o =
      match o 1 with
      | .ok => .success 1 []
      | .fatal => .thrown 1 false []
      | .rateLimited =>
        match o 2 with
        | .ok => .success 2 [5000]
        | .fatal => .thrown 2 false [5000]
        | .rateLimited =>
          match o 3 with
          | .ok => .success 3 [5000, 10000]
          | .fatal => .thrown 3 false [5000, 10000]
          | .rateLimited => .thrown 3 true [5000, 10000] := by
  cases h1 : o 1 <;> cases h2 : o 2 <;> cases h3 : o 3 <;>
    simp [generateWithRetry, generateWithRetryGo, h1, h2, h3]

/-- C9: within one session `appliedRewrites` grows monotonically: a
successful apply adds exactly the applied index, a failed apply leaves the
set unchanged, no `applyRewrite` call ever removes an index, and only
`handleStartOver` (or a new submission, which performs the same reset)
empties it; consequently a second apply of the same index is rejected by the
applied-index guard (the disabled button), so it causes no second textual
change. -/
theorem c9_applied_set (rewrites : List Rewrite) (r : Rewrite) (s : Session)
    (index : Nat)
    (hr : rewrites[index]? = some r)
    (hnew : index ∉ s.appliedRewrites) :
    ((∃ out, locateAndReplace s.resumeText r.original r.suggested = some out) →
      (applyRewrite rewrites index s).appliedRewrites
          = insert index s.appliedRewrites ∧
      applyRewrite rewrites index (applyRewrite rewrites index s)
          = applyRewrite rewrites index s) ∧
    (locateAndReplace s.resumeText r.original r.suggested = none →
      (applyRewrite rewrites index s).appliedRewrites = s.appliedRewrites ∧
      (applyRewrite rewrites index s).resumeText = s.resumeText) ∧
    (∀ (s' : Session) (j : Nat),
      s'.appliedRewrites ⊆ (applyRewrite rewrites j s').appliedRewrites) ∧
    (handleStartOver s).appliedRewrites = ∅ := by
  refine ⟨?_, ?_, ?_, rfl⟩
  · rintro ⟨out, hout⟩
    have h1 : applyRewrite rewrites index s =
        handleApplyRewrite r index s := by
      simp [applyRewrite, hnew, hr]
    have h2 : handleApplyRewrite r index s =
        Session.mk out.1 (insert index s.appliedRewrites) false
          (some (out.2.1, out.2.2)) := by
      simp [handleApplyRewrite, hout]
    constructor
    · rw [h1, h2]
    · rw [h1, h2]
      have hmem : index ∈
          (Session.mk out.1 (insert index s.appliedRewrites) false
            (some (out.2.1, out.2.2))).appliedRewrites := by
        simp
      simp [applyRewrite, hmem]
  · intro hnone
    have h1 : applyRewrite rewrites index s =
        handleApplyRewrite r index s := by
      simp [applyRewrite, hnew, hr]
    rw [h1, handleApplyRewrite_of_none hnone]
    exact ⟨rfl, rfl⟩
  · intro s' j
    by_cases hj : j ∈ s'.appliedRewrites
    · simp [applyRewrite, hj]
    · cases hr' : rewrites[j]? with
      | none => simp [applyRewrite, hj, hr']
      | some r' =>
        simp only [applyRewrite, hj, if_false, hr']
        cases hout : locateAndReplace s'.resumeText r'.original
            r'.suggested with
        | none => simp [handleApplyRewrite, hout]
        | some out =>
          simp only [handleApplyRewrite, hout]
          exact Finset.subset_insert j s'.appliedRewrites

/-- Witness for C9: a concrete session in which suggestion 0 applies
successfully; the second apply is a no-op. -/
theorem c9_applied_set_witness :
    (applyRewrite [Rewrite.mk "ab".toList "XY".toList "w".toList] 0
        (Session.mk "ab cd".toList ∅ false none)).appliedRewrites
      = insert 0 (∅ : Finset Nat) ∧
    applyRewrite [Rewrite.mk "ab".toList "XY".toList "w".toList] 0
        (applyRewrite [Rewrite.mk "ab".toList "XY".toList "w".toList] 0
          (Session.mk "ab cd".toList ∅ false none))
      = applyRewrite [Rewrite.mk "ab".toList "XY".toList "w".toList] 0
          (Session.mk "ab cd".toList ∅ false none) := by
  have h := c9_applied_set [Rewrite.mk "ab".toList "XY".toList "w".toList]
    (Rewrite.mk "ab".toList "XY".toList "w".toList)
    (Session.mk "ab cd".toList ∅ false none) 0 rfl (by decide)
  have hsucc := h.1 ⟨("XY cd".toList, 0, 2), by rfl⟩
  exact hsucc

end JDMatch
